import Mathlib

/-!
Verification of the lextwt AST core (src/types/lextwt/ast.go and the types
package): the Twt aggregate, its metadata (Comments) store, hashing,
cloning, link expansion, formatting, and the serialization codecs.

Go heap objects that are mutated through pointers (Mention and Tag cells)
are modelled by an explicit store (`Heap`) of cells addressed by index;
every other element kind is immutable in the source and is modelled by
value.  Machine integers do not occur in the data model except in the
BLAKE2b hash, where 64-bit words are `Nat` reduced `% 2^64`.
-/

/-! ## Twter and time (types package) -/

/-- Author identity (types.Twter).  The `Follow` map is never read by the
code under verification and is omitted. -/
structure Twter where
  nick : String
  url : String
  avatar : String
  tagline : String
deriving Repr, DecidableEq, Inhabited

/-- A calendar time, the part of Go `time.Time` observable through
`Format(time.RFC3339)`: wall-clock fields plus a zone offset in minutes
east of UTC. -/
structure GoTime where
  year : Nat
  month : Nat
  day : Nat
  hour : Nat
  minute : Nat
  second : Nat
  offset : Int
deriving Repr, DecidableEq, Inhabited

/-- Zero-pad a numeral to two digits, as Go `Format` does for "01". -/
def pad2 (n : Nat) : String :=
  if n < 10 then "0" ++ toString n else toString n

/-- Zero-pad a numeral to four digits, as Go `Format` does for "2006". -/
def pad4 (n : Nat) : String :=
  if n < 10 then "000" ++ toString n
  else if n < 100 then "00" ++ toString n
  else if n < 1000 then "0" ++ toString n
  else toString n

/-- Go `t.Format(time.RFC3339)`: layout 2006-01-02T15:04:05Z07:00, where a
zero zone offset prints as "Z". -/
def formatRFC3339 (t : GoTime) : String :=
  pad4 t.year ++ "-" ++ pad2 t.month ++ "-" ++ pad2 t.day ++ "T" ++
  pad2 t.hour ++ ":" ++ pad2 t.minute ++ ":" ++ pad2 t.second ++
  (if t.offset = 0 then "Z"
   else (if t.offset > 0 then "+" else "-") ++
     pad2 (t.offset.natAbs / 60) ++ ":" ++ pad2 (t.offset.natAbs % 60))

/-- The Go zero `time.Time` (year 1, January 1, midnight UTC). -/
def zeroGoTime : GoTime := ⟨1, 1, 1, 0, 0, 0, 0⟩

/-- types.TwtHashLength. -/
def TwtHashLength : Nat := 7

/-! ## Minimal net/url model

Only `Hostname()` and `Path` of a parsed URL are read by the code under
verification.  `urlParse` models `url.Parse` for the common
scheme://host/path shape: without "://" the whole string is the path and
the host is empty (as in Go, where a string without a scheme parses into
`Path`); ports, queries and fragments are not modelled. -/

structure GoURL where
  scheme : String
  host : String
  path : String
deriving Repr, DecidableEq, Inhabited

/-- Does the list start with the pattern? (strings.HasPrefix on chars.) -/
def listHasPre : List Char → List Char → Bool
  | [], _ => true
  | _ :: _, [] => false
  | p :: ps, c :: cs => p = c && listHasPre ps cs

/-- strings.HasPrefix. -/
def strStartsWith (s pre : String) : Bool := listHasPre pre.toList s.toList

/-- strings.HasSuffix. -/
def strEndsWith (s suf : String) : Bool :=
  listHasPre suf.toList.reverse s.toList.reverse

/-- Split a list at the first occurrence of a pattern: the part before it
and the part after it, or `none` when the pattern does not occur. -/
def breakSub (pat : List Char) : List Char → Option (List Char × List Char)
  | [] => if pat.isEmpty then some ([], []) else none
  | c :: cs =>
    if listHasPre pat (c :: cs) then some ([], (c :: cs).drop pat.length)
    else
      match breakSub pat cs with
      | some (a, b) => some (c :: a, b)
      | none => none

def urlParse (s : String) : GoURL :=
  match breakSub "://".toList s.toList with
  | none => ⟨"", "", s⟩
  | some (before, after) =>
    let host := String.mk (after.takeWhile (fun c => c ≠ '/'))
    let path := String.mk (after.dropWhile (fun c => c ≠ '/'))
    ⟨String.mk before, host, path⟩

/-- Hostname of a URL string, `url.Parse(s).Hostname()`. -/
def hostnameOf (s : String) : String := (urlParse s).host

/-! ## Go string helpers -/

/-- Go `unicode.IsSpace` restricted to the characters that occur in feed
values: ASCII space classes plus the two Latin-1 space characters. -/
def goIsSpace (c : Char) : Bool :=
  c = ' ' || c = '\t' || c = '\n' || c = '\x0b' || c = '\x0c' || c = '\r' ||
  c = '\u0085' || c = ' '

/-- Helper for `goFields`: `acc` is the current in-progress word, in
reverse order; a space flushes it. -/
def goFieldsGo (acc : List Char) : List Char → List String
  | [] => if acc = [] then [] else [String.mk acc.reverse]
  | c :: cs =>
    if goIsSpace c then
      (if acc = [] then [] else [String.mk acc.reverse]) ++ goFieldsGo [] cs
    else goFieldsGo (c :: acc) cs

/-- Go strings.Fields: split around maximal runs of white space. -/
def goFields (s : String) : List String := goFieldsGo [] s.toList

/-! ## Comments (the metadata/KV store) -/

/-- One feed-header comment line (lextwt.Comment): raw literal, key and
value; a plain comment has empty key and value. -/
structure Comment where
  comment : String
  key : String
  value : String
deriving Repr, DecidableEq, Inhabited

/-- Loop body of Comments.GetN.  `lis` is the whole list (needed for the
final negative-index looked-up return), `rest` the unscanned suffix, `i`
the index of `rest.head` in `lis`, and `idx` the indices of the matches
found so far, exactly as in the Go loop. -/
def getNGo (lis : List Comment) (key : String) (n : Int) :
    List Comment → Nat → List Nat → Option Comment
  | [], _, idx =>
    if n < 0 ∧ -n < (idx.length : Int) then
      (idx[(((idx.length : Int) + n).toNat)]?).bind (fun j => lis[j]?)
    else
      none
  | c :: rest, i, idx =>
    if n = 0 ∧ key = c.key then some c
    else
      let idx := if key = c.key then idx ++ [i] else idx
      if n = (idx.length : Int) ∧ key = c.key then some c
      else getNGo lis key n rest (i + 1) idx

/-- Comments.GetN (ast.go lines 86-108). -/
def Comments.GetN (lis : List Comment) (key : String) (n : Int) : Option Comment :=
  getNGo lis key n lis 0 []

/-- Comments.GetAll (ast.go lines 110-124): entries with a non-empty key
that starts with the given string. -/
def Comments.GetAll (lis : List Comment) (pre : String) : List Comment :=
  lis.filter (fun c => c.key ≠ "" && strStartsWith c.key pre)

/-- Comments.Followers (ast.go lines 126-139): every "follow"-keyed entry
whose value has at least two fields yields a Twter from the first two. -/
def Comments.Followers (lis : List Comment) : List Twter :=
  (Comments.GetAll lis "follow").filterMap (fun c =>
    match goFields c.value with
    | nick :: url :: _ => some ⟨nick, url, "", ""⟩
    | _ => none)

/-- Reference definition of get_n written from the claim: collect all
matches; n = 0 gives the first, n > 0 the n-th (1-indexed), n < 0 the
(m+n)-th collected match whenever that index is in range. -/
def getNSpec (lis : List Comment) (key : String) (n : Int) : Option Comment :=
  let found := lis.filter (fun c => key = c.key)
  if n = 0 then found.head?
  else if 0 < n then found[(n.toNat - 1)]?
  else if 0 ≤ (found.length : Int) + n ∧ (found.length : Int) + n < (found.length : Int) then
    found[(((found.length : Int) + n).toNat)]?
  else none

/-- get_n as the code actually behaves: like the reference definition
except that for n < 0 the index m+n must additionally be at least 1, so
the first collected match is never returned for negative n. -/
def getNAmended (lis : List Comment) (key : String) (n : Int) : Option Comment :=
  let found := lis.filter (fun c => key = c.key)
  if n = 0 then found.head?
  else if 0 < n then found[(n.toNat - 1)]?
  else if -n < (found.length : Int) then
    found[(((found.length : Int) + n).toNat)]?
  else none

/-- Reference definition of followers() written from the claim: one Twter
per follow entry whose value splits into exactly two fields; entries with
fewer or more fields are skipped. -/
def followersSpec (lis : List Comment) : List Twter :=
  (Comments.GetAll lis "follow").filterMap (fun c =>
    match goFields c.value with
    | [nick, url] => some ⟨nick, url, "", ""⟩
    | _ => none)

/-- followers() as the code actually behaves: one Twter per entry whose
key starts with "follow" and whose value splits into at least two fields,
built from the first two fields; only entries with fewer than two fields
are skipped. -/
def followersAmended (lis : List Comment) : List Twter :=
  lis.filterMap (fun c =>
    if c.key ≠ "" ∧ strStartsWith c.key "follow" = true ∧
        2 ≤ (goFields c.value).length then
      some ⟨(goFields c.value).getD 0 "", (goFields c.value).getD 1 "", "", ""⟩
    else none)


/-! ## Element data

`MentionData` and `TagData` are the contents of the Go heap objects
`*Mention` and `*Tag`, the two element kinds that the code mutates in
place (ExpandLinks, FormatText).  The lazily memoized `url`/`err` fields
cache `url.Parse(target)`, a pure function of `target`; they are omitted
and the parse is recomputed at each use, which is observationally the
same. -/

structure MentionData where
  lit : String
  name : String
  domain : String
  target : String
deriving Repr, DecidableEq, Inhabited

structure TagData where
  lit : String
  tag : String
  target : String
deriving Repr, DecidableEq, Inhabited

inductive LinkType where
  | standard
  | media
  | plain
  | naked
deriving Repr, DecidableEq

inductive CodeType where
  | inline
  | block
deriving Repr, DecidableEq

/-- A fully resolved element: what a Go element looks like once its
pointer indirections are read.  The parser also produces these before
heap allocation. -/
inductive PElem where
  | mention (d : MentionData)
  | tag (d : TagData)
  | subject (subject : String) (tag : Option TagData)
  | text (lit : String)
  | link (lt : LinkType) (text : String) (target : String)
  | code (ct : CodeType) (lit : String)
  | lineSep
deriving Repr, DecidableEq

/-- An element as stored in a Twt: Mention and Tag cells (and the Tag
embedded in a Subject) live in the heap and are referenced by index;
the immutable kinds are carried by value. -/
inductive Elem where
  | mention (id : Nat)
  | tag (id : Nat)
  | subject (subject : String) (tagId : Option Nat)
  | text (lit : String)
  | link (lt : LinkType) (text : String) (target : String)
  | code (ct : CodeType) (lit : String)
  | lineSep
deriving Repr, DecidableEq

/-- The store of mutable element cells. -/
structure Heap where
  mentions : List MentionData
  tags : List TagData
deriving Repr, DecidableEq

def Heap.getMention (h : Heap) (i : Nat) : MentionData := h.mentions.getD i default

def Heap.getTag (h : Heap) (i : Nat) : TagData := h.tags.getD i default

def Heap.setMention (h : Heap) (i : Nat) (d : MentionData) : Heap :=
  { h with mentions := h.mentions.set i d }

def Heap.setTag (h : Heap) (i : Nat) (d : TagData) : Heap :=
  { h with tags := h.tags.set i d }

/-- Read an element's current contents out of the heap. -/
def elemResolve (h : Heap) : Elem → PElem
  | .mention i => .mention (h.getMention i)
  | .tag i => .tag (h.getTag i)
  | .subject s tid => .subject s (tid.map h.getTag)
  | .text lit => .text lit
  | .link lt t u => .link lt t u
  | .code ct lit => .code ct lit
  | .lineSep => .lineSep

/-- Allocate one parsed element, putting Mention/Tag contents into fresh
heap cells as the Go constructors do. -/
def allocPE (h : Heap) : PElem → Heap × Elem
  | .mention d => ({ h with mentions := h.mentions ++ [d] }, .mention h.mentions.length)
  | .tag d => ({ h with tags := h.tags ++ [d] }, .tag h.tags.length)
  | .subject s (some d) => ({ h with tags := h.tags ++ [d] }, .subject s (some h.tags.length))
  | .subject s none => (h, .subject s none)
  | .text lit => (h, .text lit)
  | .link lt t u => (h, .link lt t u)
  | .code ct lit => (h, .code ct lit)
  | .lineSep => (h, .lineSep)

def allocPEs (h : Heap) : List PElem → Heap × List Elem
  | [] => (h, [])
  | p :: ps =>
    let (h1, e) := allocPE h p
    let (h2, es) := allocPEs h1 ps
    (h2, e :: es)

/-! ## Element constructors (ast.go) -/

/-- Mention.FormatText (ast.go 259-274), on the name/target fields. -/
def mentionText (d : MentionData) : String :=
  if d.name ≠ "" ∧ d.target = "" then "@" ++ d.name
  else if d.name = "" ∧ d.target ≠ "" then "@<" ++ d.target ++ ">"
  else if d.name ≠ "" ∧ d.target ≠ "" then "@<" ++ d.name ++ " " ++ d.target ++ ">"
  else ""

/-- Mention.FormatCompact (ast.go 246-258). -/
def mentionCompact (d : MentionData) : String :=
  if d.name = "" ∧ d.target ≠ "" then "@<" ++ d.target ++ ">"
  else "@" ++ d.name

/-- Mention.FormatMarkdown (ast.go 275-290). -/
def mentionMarkdown (d : MentionData) : String :=
  if d.name ≠ "" ∧ d.target = "" then "@" ++ d.name
  else if d.name = "" ∧ d.target ≠ "" then "<" ++ d.target ++ ">"
  else if d.name ≠ "" ∧ d.target ≠ "" then
    "[@" ++ d.name ++ "](" ++ d.target ++ "#" ++ d.name ++ ")"
  else ""

/-- Mention.FormatHTML (ast.go 291-309). -/
def mentionHTML (d : MentionData) : String :=
  if d.target = "" then
    "@" ++ d.name ++ (if d.domain ≠ "" then "<em>@" ++ d.name ++ "</em>" else "")
  else
    "<a href=\"" ++ d.target ++ "\">@" ++ d.name ++
      (if d.domain ≠ "" then "<em>@" ++ d.domain ++ "</em>" else "") ++ "</a>"

/-- NewMention (ast.go 195-214): the literal is the text format of the
raw name and target; then the name is split on "@" into name and domain,
and an empty domain is derived from the target's hostname. -/
def NewMentionData (name target : String) : MentionData :=
  let lit := mentionText ⟨"", name, "", target⟩
  let nd : String × String :=
    match breakSub ['@'] name.toList with
    | some (a, b) => (String.mk a, String.mk b)
    | none => (name, "")
  let domain := if nd.2 = "" ∧ target ≠ "" then hostnameOf target else nd.2
  ⟨lit, nd.1, domain, target⟩

/-- Tag.FormatCompact (ast.go 358-360). -/
def tagCompact (d : TagData) : String := "#" ++ d.tag

/-- Tag.FormatText (ast.go 361-373). -/
def tagText (d : TagData) : String :=
  if d.target = "" then tagCompact d
  else if d.tag = "" then "#<" ++ d.target ++ ">"
  else "#<" ++ d.tag ++ " " ++ d.target ++ ">"

/-- Tag.FormatMarkdown (ast.go 374-387). -/
def tagMarkdown (d : TagData) : String :=
  if d.target = "" then tagCompact d
  else if d.tag = "" then
    let u := urlParse d.target
    "[" ++ u.host ++ u.path ++ "](" ++ d.target ++ ")"
  else "[#" ++ d.tag ++ "](" ++ d.target ++ ")"

/-- Tag.FormatHTML (ast.go 388-395). -/
def tagHTML (d : TagData) : String :=
  if d.target = "" then tagCompact d
  else "<a href=\"" ++ d.target ++ "\">#" ++ d.tag ++ "</a>"

/-- NewTag (ast.go 327-335): the literal is the tag's text format. -/
def NewTagData (tag target : String) : TagData :=
  ⟨tagText ⟨"", tag, target⟩, tag, target⟩

/-- Replace every U+2028 line separator by a newline
(strings.ReplaceAll(s, "\u2028", "\n") at character level). -/
def replaceLS : List Char → List Char
  | [] => []
  | c :: cs => (if c = '\u2028' then '\n' else c) :: replaceLS cs

/-- Code.Literal (ast.go 572-577). -/
def codeLiteral (ct : CodeType) (lit : String) : String :=
  match ct with
  | .block => "```" ++ lit ++ "```"
  | .inline => "`" ++ lit ++ "`"

/-- Code.String (ast.go 580-583): the literal with line separators
replaced by newlines. -/
def codeString (ct : CodeType) (lit : String) : String :=
  String.mk (replaceLS (codeLiteral ct lit).toList)

/-- Link.Literal (ast.go 529-540). -/
def linkLiteral (lt : LinkType) (text target : String) : String :=
  match lt with
  | .naked => target
  | .plain => "<" ++ target ++ ">"
  | .media => "![" ++ text ++ "](" ++ target ++ ")"
  | .standard => "[" ++ text ++ "](" ++ target ++ ")"

/-- Literal of a resolved element, as read from input (Elem.Literal of
each kind in ast.go). -/
def PElem.literal : PElem → String
  | .mention d => d.lit
  | .tag d => d.lit
  | .subject _ (some d) => "(" ++ d.lit ++ ")"
  | .subject s none => "(" ++ s ++ ")"
  | .text lit => lit
  | .link lt t u => linkLiteral lt t u
  | .code ct lit => codeLiteral ct lit
  | .lineSep => "\u2028"

/-- Subject.FormatText (ast.go 433-443): parens around the embedded
tag's compact form, or the free text. -/
def subjectTextFmt (s : String) (t : Option TagData) : String :=
  "(" ++ (match t with | none => s | some d => tagCompact d) ++ ")"

/-- Subject.FormatMarkdown (ast.go 444-454). -/
def subjectMarkdown (s : String) (t : Option TagData) : String :=
  "(" ++ (match t with | none => s | some d => tagMarkdown d) ++ ")"

/-- Subject.FormatHTML (ast.go 455-465). -/
def subjectHTML (s : String) (t : Option TagData) : String :=
  "(" ++ (match t with | none => s | some d => tagHTML d) ++ ")"

/-- Subject.Text (ast.go 426-431): the free text, or the embedded tag's
LITERAL (which includes the leading "#"). -/
def subjectText (s : String) (t : Option TagData) : String :=
  match t with
  | none => s
  | some d => d.lit

/-! ## Rendering -/

/-- The five element-sequence rendering loops of Twt.Format
(ast.go 787-850): %H, %T, %M, %L, %C. -/
inductive RMode where
  | H
  | T
  | M
  | L
  | C
deriving Repr, DecidableEq

/-- Render one resolved element in one mode, following the interface
dispatch of Twt.Format: an element kind that does not implement the
mode's interface falls back through the next interfaces to its literal.
Code implements only ElemMarkdown; Link and Text implement none;
lineSeparator implements only ElemText; Subject implements all but
ElemCompact. -/
def PElem.render (m : RMode) : PElem → String
  | .mention d =>
    match m with
    | .H => mentionHTML d
    | .T => mentionText d
    | .M => mentionMarkdown d
    | .L => d.lit
    | .C => mentionCompact d
  | .tag d =>
    match m with
    | .H => tagHTML d
    | .T => tagText d
    | .M => tagMarkdown d
    | .L => d.lit
    | .C => tagCompact d
  | .subject s t =>
    match m with
    | .H => subjectHTML s t
    | .T => subjectTextFmt s t
    | .M => subjectMarkdown s t
    | .L => PElem.literal (.subject s t)
    | .C => PElem.literal (.subject s t)
  | .code ct lit =>
    match m with
    | .H => codeString ct lit
    | .M => codeString ct lit
    | _ => codeLiteral ct lit
  | .lineSep =>
    match m with
    | .H => "\n"
    | .T => "\n"
    | .M => "\n"
    | _ => "\u2028"
  | .text lit => lit
  | .link lt t u => linkLiteral lt t u

/-! ## BLAKE2b-256 (golang.org/x/crypto/blake2b, as used by Twt.Hash)

RFC 7693 BLAKE2b with 32-byte digest, no key.  64-bit words are `Nat`
reduced modulo 2^64. -/

/-- Rotate a 64-bit word right by `n`. -/
def rotr64 (x n : Nat) : Nat :=
  ((x >>> n) ||| (x <<< (64 - n))) % 2 ^ 64

/-- The BLAKE2b IV (the SHA-512 initialization vector). -/
def b2IV : List Nat :=
  [0x6a09e667f3bcc908, 0xbb67ae8584caa73b, 0x3c6ef372fe94f82b, 0xa54ff53a5f1d36f1,
   0x510e527fade682d1, 0x9b05688c2b3e6c1f, 0x1f83d9abfb41bd6b, 0x5be0cd19137e2179]

/-- The BLAKE2b message schedule. -/
def b2sigma : List (List Nat) :=
  [[0, 1, 2, 3, 4, 5, 6, 7, 8, 9, 10, 11, 12, 13, 14, 15],
   [14, 10, 4, 8, 9, 15, 13, 6, 1, 12, 0, 2, 11, 7, 5, 3],
   [11, 8, 12, 0, 5, 2, 15, 13, 10, 14, 3, 6, 7, 1, 9, 4],
   [7, 9, 3, 1, 13, 12, 11, 14, 2, 6, 5, 10, 4, 0, 15, 8],
   [9, 0, 5, 7, 2, 4, 10, 15, 14, 1, 11, 12, 6, 8, 3, 13],
   [2, 12, 6, 10, 0, 11, 8, 3, 4, 13, 7, 5, 15, 14, 1, 9],
   [12, 5, 1, 15, 14, 13, 4, 10, 0, 7, 6, 3, 9, 2, 8, 11],
   [13, 11, 7, 14, 12, 1, 3, 9, 5, 0, 15, 4, 8, 6, 2, 10],
   [6, 15, 14, 9, 11, 3, 0, 8, 12, 2, 13, 7, 1, 4, 10, 5],
   [10, 2, 8, 4, 7, 6, 1, 5, 15, 11, 9, 14, 3, 12, 13, 0]]

/-- The BLAKE2b G mixing function on the 16-word working vector. -/
def b2g (v : List Nat) (a b c d x y : Nat) : List Nat :=
  let va := v.getD a 0
  let vb := v.getD b 0
  let vc := v.getD c 0
  let vd := v.getD d 0
  let va := (va + vb + x) % 2 ^ 64
  let vd := rotr64 (vd ^^^ va) 32
  let vc := (vc + vd) % 2 ^ 64
  let vb := rotr64 (vb ^^^ vc) 24
  let va := (va + vb + y) % 2 ^ 64
  let vd := rotr64 (vd ^^^ va) 16
  let vc := (vc + vd) % 2 ^ 64
  let vb := rotr64 (vb ^^^ vc) 63
  (((v.set a va).set b vb).set c vc).set d vd

/-- One BLAKE2b round with schedule row `s`. -/
def b2round (m : List Nat) (v : List Nat) (s : List Nat) : List Nat :=
  let mi := fun i => m.getD (s.getD i 0) 0
  let v := b2g v 0 4 8 12 (mi 0) (mi 1)
  let v := b2g v 1 5 9 13 (mi 2) (mi 3)
  let v := b2g v 2 6 10 14 (mi 4) (mi 5)
  let v := b2g v 3 7 11 15 (mi 6) (mi 7)
  let v := b2g v 0 5 10 15 (mi 8) (mi 9)
  let v := b2g v 1 6 11 12 (mi 10) (mi 11)
  let v := b2g v 2 7 8 13 (mi 12) (mi 13)
  b2g v 3 4 9 14 (mi 14) (mi 15)

/-- The BLAKE2b chain value, eight 64-bit words. -/
structure B2S where
  h0 : Nat
  h1 : Nat
  h2 : Nat
  h3 : Nat
  h4 : Nat
  h5 : Nat
  h6 : Nat
  h7 : Nat
deriving Repr, DecidableEq

/-- Little-endian value of a byte list. -/
def le64 (bs : List Nat) : Nat := bs.foldr (fun b acc => b + 256 * acc) 0

/-- The sixteen little-endian 64-bit words of a 128-byte block. -/
def blockWords (block : List Nat) : List Nat :=
  (List.range 16).map (fun i => le64 ((block.drop (8 * i)).take 8))

/-- The BLAKE2b compression function F. -/
def b2F (h : B2S) (block : List Nat) (t : Nat) (final : Bool) : B2S :=
  let m := blockWords block
  let v := [h.h0, h.h1, h.h2, h.h3, h.h4, h.h5, h.h6, h.h7] ++ b2IV
  let v := v.set 12 (v.getD 12 0 ^^^ t % 2 ^ 64)
  let v := v.set 13 (v.getD 13 0 ^^^ t / 2 ^ 64 % 2 ^ 64)
  let v := if final then v.set 14 (v.getD 14 0 ^^^ (2 ^ 64 - 1)) else v
  let v := (List.range 12).foldl (fun v r => b2round m v (b2sigma.getD (r % 10) [])) v
  ⟨h.h0 ^^^ v.getD 0 0 ^^^ v.getD 8 0, h.h1 ^^^ v.getD 1 0 ^^^ v.getD 9 0,
   h.h2 ^^^ v.getD 2 0 ^^^ v.getD 10 0, h.h3 ^^^ v.getD 3 0 ^^^ v.getD 11 0,
   h.h4 ^^^ v.getD 4 0 ^^^ v.getD 12 0, h.h5 ^^^ v.getD 5 0 ^^^ v.getD 13 0,
   h.h6 ^^^ v.getD 6 0 ^^^ v.getD 14 0, h.h7 ^^^ v.getD 7 0 ^^^ v.getD 15 0⟩

/-- Process the message block by block; `t` is the byte offset already
consumed.  The final (possibly zero-padded, possibly empty) block is
compressed with the final flag and the total length as counter. -/
def b2blocks (h : B2S) (msg : List Nat) (t : Nat) : B2S :=
  if hlen : msg.length ≤ 128 then
    b2F h (msg ++ List.replicate (128 - msg.length) 0) (t + msg.length) true
  else
    b2blocks (b2F h (msg.take 128) (t + 128) false) (msg.drop 128) (t + 128)
termination_by msg.length
decreasing_by
  simp only [List.length_drop]
  omega

/-- The initial chain value for an unkeyed 32-byte digest:
IV with h0 xored with 0x0101kknn for kk = 0, nn = 32. -/
def b2h0 : B2S :=
  ⟨0x6a09e667f3bcc908 ^^^ 0x01010020, 0xbb67ae8584caa73b, 0x3c6ef372fe94f82b,
   0xa54ff53a5f1d36f1, 0x510e527fade682d1, 0x9b05688c2b3e6c1f,
   0x1f83d9abfb41bd6b, 0x5be0cd19137e2179⟩

/-- Little-endian bytes of a 64-bit word. -/
def le8 (w : Nat) : List Nat :=
  [w % 256, w / 2 ^ 8 % 256, w / 2 ^ 16 % 256, w / 2 ^ 24 % 256,
   w / 2 ^ 32 % 256, w / 2 ^ 40 % 256, w / 2 ^ 48 % 256, w / 2 ^ 56 % 256]

/-- blake2b.Sum256: the 32-byte BLAKE2b digest of a byte sequence. -/
def blake2b256 (msg : List Nat) : List Nat :=
  let h := b2blocks b2h0 msg 0
  le8 h.h0 ++ le8 h.h1 ++ le8 h.h2 ++ le8 h.h3

/-! ## Unpadded base32 (encoding/base32 StdEncoding.WithPadding(NoPadding)) -/

/-- The eight bits of a byte, most significant first. -/
def byteBits (b : Nat) : List Nat :=
  [b / 128 % 2, b / 64 % 2, b / 32 % 2, b / 16 % 2, b / 8 % 2, b / 4 % 2, b / 2 % 2, b % 2]

/-- Split a bit list into 5-bit groups, zero-padding the last group. -/
def chunk5 : List Nat → List (List Nat)
  | [] => []
  | [a] => [[a, 0, 0, 0, 0]]
  | [a, b] => [[a, b, 0, 0, 0]]
  | [a, b, c] => [[a, b, c, 0, 0]]
  | [a, b, c, d] => [[a, b, c, d, 0]]
  | a :: b :: c :: d :: e :: l => [a, b, c, d, e] :: chunk5 l

/-- Big-endian value of a bit list. -/
def bitsVal (bs : List Nat) : Nat := bs.foldl (fun acc b => 2 * acc + b) 0

/-- The standard base32 alphabet. -/
def b32Alphabet : List Char := "ABCDEFGHIJKLMNOPQRSTUVWXYZ234567".toList

/-- The alphabet character for a 5-bit value (values are below 32; the
explicit `% 32` only makes totality plain). -/
def b32char (n : Nat) : Char := b32Alphabet.getD (n % 32) 'A'

/-- Unpadded base32 of a byte sequence (EncodeToString with NoPadding). -/
def base32nopad (bytes : List Nat) : List Char :=
  (chunk5 (bytes.flatMap byteBits)).map (fun c => b32char (bitsVal c))

/-- UTF-8 bytes of a string, `[]byte(s)`. -/
def strBytes (s : String) : List Nat := s.toUTF8.toList.map (fun b => b.toNat)

/-! ## The Twt aggregate -/

/-- lextwt.DateTime: literal as read plus the parsed instant.  The Go
field is a possibly-nil pointer; `Option DateTime` models that. -/
structure DateTime where
  lit : String
  dt : GoTime
deriving Repr, DecidableEq, Inhabited

/-- The data of the Subject element the `Twt.subject` field points to
(the pointer aliases the Subject element in `msg`; the Subject's own
fields are immutable, only its embedded Tag cell is mutable). -/
structure SubjRef where
  subject : String
  tagId : Option Nat
deriving Repr, DecidableEq

/-- lextwt.Twt (ast.go 585-595).  Go interface-nil and typed-nil elements
are represented by `none` in the element lists handed to construction;
elements stored in `msg` are always valid. -/
structure Twt where
  dt : Option DateTime
  msg : List Elem
  mentions : List Nat
  tags : List Nat
  links : List (LinkType × String × String)
  hash : String
  subject : Option SubjRef
  twter : Twter
  pos : Nat
deriving Repr, DecidableEq

/-- The empty Twt a construction starts from. -/
def emptyTwt (twter : Twter) (dt : Option DateTime) : Twt :=
  ⟨dt, [], [], [], [], "", none, twter, 0⟩

/-- Twt.append (ast.go 628-655): drop nil/IsNil elements; append to msg;
a Subject fills the subject slot when still empty and contributes its
embedded tag to the tags index; Tag/Mention/Link feed their indices. -/
def Twt.append (twt : Twt) (oe : Option Elem) : Twt :=
  match oe with
  | none => twt
  | some e =>
    let twt := { twt with msg := twt.msg ++ [e] }
    match e with
    | .subject s tid =>
      let twt := if twt.subject = none then { twt with subject := some ⟨s, tid⟩ } else twt
      match tid with
      | some t => { twt with tags := twt.tags ++ [t] }
      | none => twt
    | .tag i => { twt with tags := twt.tags ++ [i] }
    | .mention i => { twt with mentions := twt.mentions ++ [i] }
    | .link lt t u => { twt with links := twt.links ++ [(lt, t, u)] }
    | _ => twt

/-- NewTwt (ast.go 600-608). -/
def NewTwt (twter : Twter) (dt : Option DateTime) (elems : List (Option Elem)) : Twt :=
  elems.foldl Twt.append (emptyTwt twter dt)

/-- Twt.Created (ast.go 924): the DateTime's instant, or the zero time
for a nil DateTime. -/
def Twt.Created (twt : Twt) : GoTime :=
  match twt.dt with
  | some d => d.dt
  | none => zeroGoTime

/-- Twt.LiteralText (ast.go 668-677): concatenated element literals. -/
def Twt.LiteralText (heap : Heap) (twt : Twt) : String :=
  String.join (twt.msg.map (fun e => (elemResolve heap e).literal))

/-- Twt.Literal (ast.go 660-667): timestamp, tab, text, newline. -/
def Twt.Literal (heap : Heap) (twt : Twt) : String :=
  (match twt.dt with | some d => d.lit | none => "") ++ "\t" ++
    Twt.LiteralText heap twt ++ "\n"

/-- The element-sequence loops of Twt.Format (ast.go 787-850):
concatenated per-element rendering in the given mode. -/
def Twt.render (heap : Heap) (twt : Twt) (m : RMode) : String :=
  String.join (twt.msg.map (fun e => (elemResolve heap e).render m))

/-- Twt.Hash (ast.go 947-966): an already-set hash is returned as is;
otherwise the last TwtHashLength characters of the lowercased unpadded
base32 of BLAKE2b-256 over url NL rfc3339(created) NL literal text. -/
def Twt.Hash (heap : Heap) (twt : Twt) : String :=
  if twt.hash ≠ "" then twt.hash
  else
    let payload := twt.twter.url ++ "\n" ++ formatRFC3339 twt.Created ++ "\n" ++
      Twt.LiteralText heap twt
    let lowered := (base32nopad (blake2b256 (strBytes payload))).map Char.toLower
    String.mk (lowered.drop (lowered.length - TwtHashLength))

/-- What Twt.Subject (ast.go 967-972) returns, resolved against the
heap: the stored subject, or the synthesized NewSubjectTag(hash, "").
The Go method memoizes on a value receiver, so the synthesis never
persists and a pure reading is faithful. -/
structure SubjectView where
  subject : String
  tag : Option TagData
deriving Repr, DecidableEq

def Twt.SubjectData (heap : Heap) (twt : Twt) : SubjectView :=
  match twt.subject with
  | some s => ⟨s.subject, s.tagId.map heap.getTag⟩
  | none => ⟨"", some (NewTagData (Twt.Hash heap twt) "")⟩

/-- Subject.Text on the resolved view. -/
def SubjectView.text (v : SubjectView) : String := subjectText v.subject v.tag

/-- Clone the elements of a message in order (the loop of Twt.CloneTwt,
ast.go 681-687): each element's Clone copies its current contents into a
fresh cell. -/
def cloneElems (h : Heap) : List Elem → Heap × List Elem
  | [] => (h, [])
  | e :: es =>
    let (h1, e') := allocPE h (elemResolve h e)
    let (h2, es') := cloneElems h1 es
    (h2, e' :: es')

/-- Twt.CloneTwt (ast.go 681-687): clone every element and rebuild via
NewTwt with the same twter and DateTime. -/
def Twt.CloneTwt (heap : Heap) (twt : Twt) : Heap × Twt :=
  let (h1, msg) := cloneElems heap twt.msg
  (h1, NewTwt twt.twter twt.dt (msg.map some))

/-- types.FeedLookup: resolve a mention name to an author. -/
def FeedLookup := String → Twter

/-- types.FmtOpts, as a record of the policy functions the code calls;
`localHost` is `LocalURL().Hostname()`. -/
structure FmtOpts where
  localHost : String
  isLocalURL : String → Bool
  userURL : String → String
  externalURL : String → String → String
  urlForTag : String → String
  urlForUser : String → String

/-- Twt.ExpandLinks (ast.go 901-922): fill empty tag targets via
URLForTag; for empty mention targets resolve the author, overwrite the
name (splitting name AT domain), and set the target. -/
def Twt.ExpandLinks (heap : Heap) (twt : Twt) (opts : FmtOpts)
    (lookup : Option FeedLookup) : Heap :=
  let h1 := twt.tags.foldl (fun h i =>
    let tag := h.getTag i
    if tag.target = "" then h.setTag i { tag with target := opts.urlForTag tag.tag }
    else h) heap
  twt.mentions.foldl (fun h i =>
    let m := h.getMention i
    match lookup with
    | some lk =>
      if m.target = "" then
        let tw := lk m.name
        let nd : String × String :=
          match breakSub ['@'] tw.nick.toList with
          | some (a, b) => (String.mk a, String.mk b)
          | none => (tw.nick, m.domain)
        h.setMention i { m with name := nd.1, domain := nd.2, target := tw.url }
      else h
    | none => h) h1

/-- types.TwtTextFormat; `other` stands for any value outside the three
named constants (the type is a Go int). -/
inductive TwtTextFormat where
  | markdown
  | html
  | text
  | other
deriving Repr, DecidableEq

/-- The render mode Twt.FormatText selects per format (ast.go 890-899). -/
def modeRender : TwtTextFormat → RMode
  | .html => .H
  | .text => .T
  | .markdown => .M
  | .other => .L

/-- Twt.FormatText (ast.go 855-900): work on a clone; with opts, in text
mode clear tag targets and clear mention targets (deriving the domain
from the local host first when applicable); in markdown/html mode rewrite
mention targets to user or external profile URLs; then render. -/
def Twt.FormatText (heap : Heap) (twt : Twt) (mode : TwtTextFormat)
    (opts : Option FmtOpts) : Heap × String :=
  let (h1, c) := Twt.CloneTwt heap twt
  let h2 :=
    match opts with
    | none => h1
    | some o =>
      let ht := c.tags.foldl (fun h i =>
        match mode with
        | .text => h.setTag i { h.getTag i with target := "" }
        | _ => h) h1
      c.mentions.foldl (fun h i =>
        let m := h.getMention i
        match mode with
        | .text =>
          let m :=
            if m.domain == "" && o.isLocalURL m.target && strEndsWith m.target "/twtxt.txt"
            then { m with domain := o.localHost } else m
          h.setMention i { m with target := "" }
        | .markdown | .html =>
          if o.isLocalURL m.target && strEndsWith m.target "/twtxt.txt" then
            h.setMention i { m with target := o.userURL m.target }
          else
            let m := if m.domain == "" then { m with domain := hostnameOf m.target } else m
            h.setMention i { m with target := o.externalURL m.name m.target }
        | .other => h) ht
  (h2, Twt.render h2 c (modeRender mode))

/-! ## Parser, modelled from the spec

The lexer and parser source files of the repository are not under src/
(only ast.go and the types package are); everything in this section with
a "Modelled from the spec" comment reconstructs their behavior from the
specification (sections 4.1-4.2): element dispatch on the leading
character, the three mention/tag forms, subject only at the very start,
inline/block code, the four link forms, and graceful degradation of
malformed markup to plain text.  The modelled parser emits no
diagnostics. -/

/-- Modelled from the spec: characters that end a plain-text run because
they can open another element. -/
def isSpecialChar (c : Char) : Bool :=
  c = '@' || c = '#' || c = '`' || c = '<' || c = '[' || c = '\u2028'

/-- Modelled from the spec: a bare recognizable URL run begins here. -/
def urlStart (cs : List Char) : Bool :=
  listHasPre "http://".toList cs || listHasPre "https://".toList cs

/-- Modelled from the spec: a word character for mention/tag names
(anything that is not a lexer delimiter). -/
def isWordChar (c : Char) : Bool :=
  !(goIsSpace c) &&
    !(c = '@' || c = '#' || c = '(' || c = ')' || c = '<' || c = '>' ||
      c = '[' || c = ']' || c = '!' || c = '`' || c = '\u2028')

/-- Modelled from the spec: the longest plain-text run from here,
stopping before any element opener. -/
def textRun : List Char → List Char × List Char
  | [] => ([], [])
  | '!' :: '[' :: rest => ([], '!' :: '[' :: rest)
  | c :: rest =>
    if isSpecialChar c || urlStart (c :: rest) then ([], c :: rest)
    else
      let (t, r) := textRun rest
      (c :: t, r)

/-- Modelled from the spec: `[text](url)` after the opening bracket. -/
def parseBracketLink (cs : List Char) : Option (String × String × List Char) :=
  match breakSub [']', '('] cs with
  | some (txt, rest) =>
    match breakSub [')'] rest with
    | some (url, rest2) => some (String.mk txt, String.mk url, rest2)
    | none => none
  | none => none

/-- Modelled from the spec: the `#tag` / `#<url>` / `#<tag url>` grammar
applied to the interior of a subject. -/
def subjectTagOf (cs : List Char) : Option TagData :=
  match cs with
  | '#' :: '<' :: rest =>
    match breakSub ['>'] rest with
    | some (body, _) =>
      match breakSub [' '] body with
      | some (tg, url) => some (NewTagData (String.mk tg) (String.mk url))
      | none => some (NewTagData "" (String.mk body))
    | none => none
  | '#' :: word => some (NewTagData (String.mk word) "")
  | _ => none

/-- Modelled from the spec: recursive-descent element parsing of a body
fragment.  `atStart` enables the leading-subject rule; fuel is one more
than the character count, and every recursive call consumes at least one
character. -/
def parseElems : Nat → Bool → List Char → List PElem
  | 0, _, _ => []
  | _, _, [] => []
  | fuel + 1, atStart, cs =>
    match cs with
    | [] => []
    | '\u2028' :: rest => .lineSep :: parseElems fuel false rest
    | '@' :: '<' :: rest =>
      (match breakSub ['>'] rest with
       | some (inside, rest2) =>
         (match breakSub [' '] inside with
          | some (nm, tgt) =>
            PElem.mention (NewMentionData (String.mk nm) (String.mk tgt))
          | none => PElem.mention (NewMentionData "" (String.mk inside)))
           :: parseElems fuel false rest2
       | none => [.text (String.mk cs)])
    | '@' :: rest =>
      let nm := rest.takeWhile isWordChar
      if nm.isEmpty then .text "@" :: parseElems fuel false rest
      else .mention (NewMentionData (String.mk nm) "")
        :: parseElems fuel false (rest.drop nm.length)
    | '#' :: '<' :: rest =>
      (match breakSub ['>'] rest with
       | some (inside, rest2) =>
         (match breakSub [' '] inside with
          | some (tg, tgt) => PElem.tag (NewTagData (String.mk tg) (String.mk tgt))
          | none => PElem.tag (NewTagData "" (String.mk inside)))
           :: parseElems fuel false rest2
       | none => [.text (String.mk cs)])
    | '#' :: rest =>
      let tg := rest.takeWhile isWordChar
      if tg.isEmpty then .text "#" :: parseElems fuel false rest
      else .tag (NewTagData (String.mk tg) "")
        :: parseElems fuel false (rest.drop tg.length)
    | '(' :: rest =>
      if atStart then
        match breakSub [')'] rest with
        | some (inside, rest2) =>
          (match subjectTagOf inside with
           | some td => PElem.subject "" (some td)
           | none => PElem.subject (String.mk inside) none)
            :: parseElems fuel false rest2
        | none =>
          let (tk, r) := textRun cs
          if tk.isEmpty then .text "(" :: parseElems fuel false rest
          else .text (String.mk tk) :: parseElems fuel false r
      else
        let (tk, r) := textRun cs
        if tk.isEmpty then .text "(" :: parseElems fuel false rest
        else .text (String.mk tk) :: parseElems fuel false r
    | '`' :: '`' :: '`' :: rest =>
      (match breakSub ['`', '`', '`'] rest with
       | some (inner, rest2) =>
         .code .block (String.mk inner) :: parseElems fuel false rest2
       | none => [.text (String.mk cs)])
    | '`' :: rest =>
      (match breakSub ['`'] rest with
       | some (inner, rest2) =>
         .code .inline (String.mk inner) :: parseElems fuel false rest2
       | none => [.text (String.mk cs)])
    | '<' :: rest =>
      (match breakSub ['>'] rest with
       | some (inner, rest2) =>
         .link .plain "" (String.mk inner) :: parseElems fuel false rest2
       | none => [.text (String.mk cs)])
    | '!' :: '[' :: rest =>
      (match parseBracketLink rest with
       | some (txt, url, rest2) =>
         .link .media txt url :: parseElems fuel false rest2
       | none => .text "!" :: parseElems fuel false ('[' :: rest))
    | '[' :: rest =>
      (match parseBracketLink rest with
       | some (txt, url, rest2) =>
         .link .standard txt url :: parseElems fuel false rest2
       | none => .text "[" :: parseElems fuel false rest)
    | c :: rest =>
      if urlStart (c :: rest) then
        let run := (c :: rest).takeWhile (fun c => !(goIsSpace c))
        .link .naked "" (String.mk run)
          :: parseElems fuel false ((c :: rest).drop run.length)
      else
        let (tk, r) := textRun (c :: rest)
        if tk.isEmpty then .text (String.mk [c]) :: parseElems fuel false rest
        else .text (String.mk tk) :: parseElems fuel false r

/-- ParseText (ast.go 609-627): parse a free-text fragment into an
element sequence (the parsing itself is modelled from the spec; the
modelled parser reports no diagnostics, so no error case arises). -/
def ParseText (heap : Heap) (text : String) : Heap × List Elem :=
  allocPEs heap (parseElems (text.toList.length + 1) true text.toList)

/-- Modelled from the spec: parse `YYYY-MM-DDTHH:MM:SS` plus `Z` or a
`+hh:mm`/`-hh:mm` zone.  The source accepts several close layout
variants; the canonical RFC3339 layout is the one the code itself emits
and the only one the verified claims exercise. -/
def parseRFC3339 (s : String) : Option GoTime :=
  match s.toList with
  | y1 :: y2 :: y3 :: y4 :: '-' :: m1 :: m2 :: '-' :: d1 :: d2 :: 'T' ::
      h1 :: h2 :: ':' :: n1 :: n2 :: ':' :: s1 :: s2 :: zrest =>
    if ([y1, y2, y3, y4, m1, m2, d1, d2, h1, h2, n1, n2, s1, s2].all Char.isDigit) then
      let num := fun (a b : Char) => (a.toNat - 48) * 10 + (b.toNat - 48)
      let t : GoTime :=
        ⟨(num y1 y2) * 100 + num y3 y4, num m1 m2, num d1 d2,
         num h1 h2, num n1 n2, num s1 s2, 0⟩
      if 1 ≤ t.month ∧ t.month ≤ 12 ∧ 1 ≤ t.day ∧ t.day ≤ 31 ∧
          t.hour ≤ 23 ∧ t.minute ≤ 59 ∧ t.second ≤ 59 then
        match zrest with
        | ['Z'] => some t
        | [sign, o1, o2, ':', o3, o4] =>
          if (sign = '+' ∨ sign = '-') ∧ ([o1, o2, o3, o4].all Char.isDigit) then
            let mins : Int := ((num o1 o2) * 60 + num o3 o4 : Nat)
            some { t with offset := if sign = '+' then mins else -mins }
          else none
        | _ => none
      else none
    else none
  | _ => none

/-- Modelled from the spec: parse_line for a record line: the field
before the first TAB must parse as a timestamp (otherwise the line is
rejected), the remainder is the body, and the Twt carries the given
author. -/
def ParseLine (heap : Heap) (line : String) (twter : Twter) :
    Heap × Except String Twt :=
  let cs0 := line.toList
  let cs := if cs0.getLast? = some '\n' then cs0.dropLast else cs0
  let tsField := cs.takeWhile (fun c => c ≠ '\t')
  let body := (cs.dropWhile (fun c => c ≠ '\t')).drop 1
  match parseRFC3339 (String.mk tsField) with
  | none => (heap, .error "unable to parse timestamp")
  | some t =>
    let (h1, elems) := allocPEs heap (parseElems (body.length + 1) true body)
    (h1, .ok (NewTwt twter (some ⟨String.mk tsField, t⟩) (elems.map some)))

/-! ## Codecs -/

/-- The fields DecodeJSON (ast.go 760-786) reads from the JSON payload;
`json.Unmarshal` itself is Go library code and the payload is modelled
already unmarshalled.  An absent hash field unmarshals to "". -/
structure JsonPayload where
  twter : Twter
  text : String
  created : GoTime
  hash : String
deriving Repr, DecidableEq

/-- DecodeJSON (ast.go 760-786): re-parse the text into elements, build
the Twt with a DateTime whose literal is the RFC3339 form of created,
then overwrite the hash field with the carried value. -/
def DecodeJSON (heap : Heap) (enc : JsonPayload) : Heap × Twt :=
  let dt : DateTime := ⟨formatRFC3339 enc.created, enc.created⟩
  let (h1, elems) := ParseText heap enc.text
  let twt := NewTwt enc.twter (some dt) (elems.map some)
  (h1, { twt with hash := enc.hash })

/-- strings.SplitN(s, sep, n) for a one-character separator and n > 0:
at most n fields, the last one unsplit. -/
def splitNGo (sep : Char) : Nat → List Char → List Char → List String
  | _, acc, [] => [String.mk acc.reverse]
  | remaining, acc, c :: cs =>
    if 1 < remaining && c = sep then
      String.mk acc.reverse :: splitNGo sep (remaining - 1) [] cs
    else splitNGo sep remaining (c :: acc) cs

def goSplitN (s : String) (sep : Char) (n : Nat) : List String :=
  if n = 0 then [] else splitNGo sep n [] s.toList

/-- Twt.GobEncode (ast.go 700-711): nick, url, avatar, hash and the
canonical literal line, tab separated. -/
def Twt.GobEncode (heap : Heap) (twt : Twt) : String :=
  twt.twter.nick ++ "\t" ++ twt.twter.url ++ "\t" ++ twt.twter.avatar ++ "\t" ++
    Twt.Hash heap twt ++ "\t" ++ Twt.Literal heap twt

/-- Twt.GobDecode (ast.go 712-735): split on the first 4 tabs into 5
fields or fail; set the hash from field 4; re-parse field 5 with the
Twter built from fields 1-3, propagating a parse failure; on success
copy the parsed Twt's content fields into the receiver. -/
def Twt.GobDecode (heap : Heap) (twt : Twt) (data : String) :
    Heap × Except String Twt :=
  let sp := goSplitN data '\t' 5
  if sp.length ≠ 5 then (heap, .error ("unable to decode twt: " ++ data ++ " "))
  else
    let twter : Twter := ⟨sp.getD 0 "", sp.getD 1 "", sp.getD 2 "", ""⟩
    let twt := { twt with hash := sp.getD 3 "" }
    match ParseLine heap (sp.getD 4 "") twter with
    | (h, .error e) => (h, .error e)
    | (h, .ok t) =>
      (h, .ok { twt with
                dt := t.dt
                msg := t.msg
                mentions := t.mentions
                tags := t.tags
                links := t.links
                subject := t.subject
                twter := t.twter })

/-! ## Well-formedness, freshness and frame predicates -/

/-- The tag-index contribution of one element in Twt.append: a Tag's own
cell, or a Subject's embedded tag cell. -/
def elemTagIds : Elem → List Nat
  | .tag i => [i]
  | .subject _ (some t) => [t]
  | _ => []

/-- The mention-index contribution of one element in Twt.append. -/
def elemMentionIds : Elem → List Nat
  | .mention i => [i]
  | _ => []

/-- The links contribution of one element in Twt.append. -/
def elemLinkData : Elem → List (LinkType × String × String)
  | .link lt t u => [(lt, t, u)]
  | _ => []

/-- The subject slot contribution of one element in Twt.append. -/
def elemSubjRef : Elem → Option SubjRef
  | .subject s t => some ⟨s, t⟩
  | _ => none

/-- All cell references of an element lie below the store bounds. -/
def Elem.wfb (nm nt : Nat) : Elem → Bool
  | .mention i => i < nm
  | .tag i => i < nt
  | .subject _ (some t) => t < nt
  | _ => true

/-- All cell references of an element lie at or above the store bounds
(the element was allocated after the bounds were taken). -/
def Elem.freshb (nm nt : Nat) : Elem → Bool
  | .mention i => nm ≤ i
  | .tag i => nt ≤ i
  | .subject _ (some t) => nt ≤ t
  | _ => true

/-- Every cell reference of the Twt (elements, derived indices, subject
slot) is valid for the heap.  Every Twt built by the constructors against
its heap satisfies this. -/
def Twt.wfb (heap : Heap) (twt : Twt) : Bool :=
  twt.msg.all (Elem.wfb heap.mentions.length heap.tags.length) &&
  twt.mentions.all (fun i => i < heap.mentions.length) &&
  twt.tags.all (fun i => i < heap.tags.length) &&
  (match twt.subject with
   | some ⟨_, some t⟩ => t < heap.tags.length
   | _ => true)

/-- Heap extension: the second heap has at least the cells of the first,
with identical contents at the old indices. -/
def HeapExt (a b : Heap) : Prop :=
  a.mentions.length ≤ b.mentions.length ∧ a.tags.length ≤ b.tags.length ∧
  (∀ i, i < a.mentions.length → b.getMention i = a.getMention i) ∧
  (∀ i, i < a.tags.length → b.getTag i = a.getTag i)

/-- Frame agreement below the bounds: both heaps read the same cells
below `nm`/`nt`. -/
def MFrame (nm nt : Nat) (h1 h2 : Heap) : Prop :=
  (∀ i, i < nm → h2.getMention i = h1.getMention i) ∧
  (∀ i, i < nt → h2.getTag i = h1.getTag i)

/-- Everything one can observe of a Twt through the heap: its resolved
elements, resolved derived indices, links, resolved subject slot and all
five renderings. -/
def Twt.Reads (heap : Heap) (twt : Twt) :
    List PElem × List MentionData × List TagData ×
      List (LinkType × String × String) ×
      Option (String × Option TagData) × List String :=
  (twt.msg.map (elemResolve heap),
   twt.mentions.map heap.getMention,
   twt.tags.map heap.getTag,
   twt.links,
   twt.subject.map (fun s => (s.subject, s.tagId.map heap.getTag)),
   [Twt.render heap twt .H, Twt.render heap twt .T, Twt.render heap twt .M,
    Twt.render heap twt .L, Twt.render heap twt .C])

/-- Success test for Except results. -/
def isOkE : Except ε α → Bool
  | .ok _ => true
  | .error _ => false

/-- The lowercase unpadded-base32 alphabet, from which every computed
hash character is drawn. -/
def lowB32 : List Char := "abcdefghijklmnopqrstuvwxyz234567".toList

/-! ## Lemmas -/

theorem getNGo_char (lis : List Comment) (key : String) (n : Int) :
    ∀ (rest : List Comment) (i : Nat) (idx : List Nat) (ms : List Comment),
      lis.drop i = rest →
      idx.length = ms.length →
      (∀ j : Nat, (idx[j]?.bind (fun k => lis[k]?)) = ms[j]?) →
      getNGo lis key n rest i idx =
        (let found := ms ++ rest.filter (fun c => key = c.key)
         if n = 0 then (rest.filter (fun c => key = c.key)).head?
         else if 0 < n then
           (if (ms.length : Int) < n then found[(n.toNat - 1)]? else none)
         else if -n < (found.length : Int) then
           found[(((found.length : Int) + n).toNat)]?
         else none) := by
  intro rest
  induction rest with
  | nil =>
    intro i idx ms hdrop hlen hlink
    simp only [getNGo, List.filter_nil, List.append_nil, hlen]
    rcases lt_trichotomy n 0 with hneg | h0 | hpos
    · have c2 : ¬ n = 0 := by omega
      have c3 : ¬ 0 < n := by omega
      rw [if_neg c2, if_neg c3]
      by_cases hin : -n < (ms.length : Int)
      · rw [if_pos (⟨hneg, hin⟩ : n < 0 ∧ -n < (ms.length : Int)), if_pos hin, hlink]
      · rw [if_neg (fun h => hin h.2), if_neg hin]
    · subst h0
      simp
    · have c1 : ¬ (n < 0 ∧ -n < (ms.length : Int)) := by omega
      have c2 : ¬ n = 0 := by omega
      rw [if_neg c1, if_neg c2, if_pos hpos]
      by_cases hlt : (ms.length : Int) < n
      · rw [if_pos hlt, eq_comm]
        exact List.getElem?_eq_none (by omega)
      · rw [if_neg hlt]
  | cons c rest ih =>
    intro i idx ms hdrop hlen hlink
    have hget : lis[i]? = some c := by
      have h1 := congrArg (fun l => l[0]?) hdrop
      simpa [List.getElem?_drop] using h1
    have hdrop' : lis.drop (i + 1) = rest := by
      have h1 := congrArg (List.drop 1) hdrop
      rwa [List.drop_drop] at h1
    have hfilterpos : ∀ (h : key = c.key),
        List.filter (fun x => decide (key = x.key)) (c :: rest) =
          c :: List.filter (fun x => decide (key = x.key)) rest := by
      intro h
      simp [List.filter_cons, h]
    have hfilterneg : ∀ (h : ¬ key = c.key),
        List.filter (fun x => decide (key = x.key)) (c :: rest) =
          List.filter (fun x => decide (key = x.key)) rest := by
      intro h
      simp [List.filter_cons, h]
    by_cases hk : key = c.key
    · by_cases h0 : n = 0
      · subst h0
        have e1 : getNGo lis key 0 (c :: rest) i idx = some c := by
          simp [getNGo, hk]
        rw [e1, hfilterpos hk]
        simp
      · have hlen' : (idx ++ [i]).length = (ms ++ [c]).length := by
          simp [hlen]
        have hlink' : ∀ j : Nat, ((idx ++ [i])[j]?.bind (fun k => lis[k]?)) = (ms ++ [c])[j]? := by
          intro j
          rcases lt_trichotomy j idx.length with hj | hj | hj
          · rw [List.getElem?_append_left hj, List.getElem?_append_left (by omega), hlink j]
          · subst hj
            rw [List.getElem?_append_right (le_refl idx.length),
              List.getElem?_append_right (by omega), hlen]
            simp [hget]
          · rw [List.getElem?_append_right (by omega), List.getElem?_append_right (by omega)]
            have e1 : j - idx.length = (j - idx.length - 1) + 1 := by omega
            have e2 : j - ms.length = (j - ms.length - 1) + 1 := by omega
            rw [e1, e2]
            simp
        simp only [getNGo]
        rw [if_neg (fun h => h0 h.1), if_pos hk]
        simp only [hfilterpos hk]
        by_cases hn2 : n = (idx.length : Int) + 1
        · rw [if_pos (⟨by
            simp only [List.length_append, List.length_cons, List.length_nil]
            push_cast
            omega, hk⟩ : n = ((idx ++ [i]).length : Int) ∧ key = c.key)]
          rw [if_neg h0, if_pos (by omega : (0 : Int) < n),
            if_pos (by omega : (ms.length : Int) < n)]
          have hidx : n.toNat - 1 = ms.length := by omega
          rw [hidx, List.getElem?_append_right (le_refl ms.length)]
          simp
        · rw [if_neg (fun h => absurd h.1 (by
            simp only [List.length_append, List.length_cons, List.length_nil]
            push_cast
            omega))]
          rw [ih (i + 1) (idx ++ [i]) (ms ++ [c]) hdrop' hlen' hlink']
          rw [if_neg h0, if_neg h0]
          simp only [List.append_assoc, List.singleton_append, List.length_append,
            List.length_cons, List.length_nil]
          by_cases hpos : 0 < n
          · rw [if_pos hpos, if_pos hpos]
            by_cases hlt : (ms.length : Int) < n
            · rw [if_pos (by push_cast; omega), if_pos hlt]
            · rw [if_neg (by push_cast; omega), if_neg hlt]
          · rw [if_neg hpos, if_neg hpos]
    · simp only [getNGo]
      rw [if_neg (fun h => hk h.2), if_neg hk,
        if_neg (fun h => hk h.2)]
      rw [ih (i + 1) idx ms hdrop' hlen hlink]
      simp only [hfilterneg hk]

/-- C1: GetN(k, n) does NOT follow the reference definition of the claim:
on a list with exactly one "k" entry, GetN(k, -1) returns not-found while
the reference definition (Python-style negative indexing, in range since
m + n = 0) returns the single match. -/
theorem c1_counterexample :
    Comments.GetN [⟨"# k = v", "k", "v"⟩] "k" (-1) ≠
      getNSpec [⟨"# k = v", "k", "v"⟩] "k" (-1) ∧
    Comments.GetN [⟨"# k = v", "k", "v"⟩] "k" (-1) = none ∧
    getNSpec [⟨"# k = v", "k", "v"⟩] "k" (-1) = some ⟨"# k = v", "k", "v"⟩ := by
  refine ⟨by decide, by decide, by decide⟩

/-- C1 (amended): GetN(k, n) follows the reference definition for n = 0
(first match, without completing the scan) and n > 0 (n-th match,
1-indexed, not-found when fewer), but for n < 0 it returns the (m+n)-th
collected match only when m+n is at least 1 (equivalently, strictly more
than |n| matches exist) and not-found otherwise; in particular
GetN(k, -1) returns the last occurrence only when at least two matches
exist. -/
theorem c1_getN (lis : List Comment) (key : String) (n : Int) :
    Comments.GetN lis key n = getNAmended lis key n ∧
    (0 ≤ n → Comments.GetN lis key n = getNSpec lis key n) := by
  have h := getNGo_char lis key n lis 0 [] [] (by simp) rfl (fun j => by simp)
  have hmain : Comments.GetN lis key n = getNAmended lis key n := by
    rw [Comments.GetN, h]
    simp only [List.nil_append, List.length_nil, getNAmended]
    by_cases h0 : n = 0
    · simp [h0]
    · by_cases hpos : 0 < n
      · simp [h0, hpos]
      · simp [h0, hpos]
  refine ⟨hmain, fun hnn => ?_⟩
  rw [hmain]
  simp only [getNAmended, getNSpec]
  by_cases h0 : n = 0
  · simp [h0]
  · have hpos : 0 < n := by omega
    simp [h0, hpos]

/-- Witness for C1's amended theorem at a concrete input. -/
theorem c1_getN_witness :
    Comments.GetN [⟨"a", "k", "1"⟩] "k" 0 = getNSpec [⟨"a", "k", "1"⟩] "k" 0 :=
  (c1_getN [⟨"a", "k", "1"⟩] "k" 0).2 (by decide)

/-- C4: Followers() does NOT skip entries whose value has more than two
fields: a follow value "a b c" (three fields) yields {a, b} instead of
being skipped as the claim requires. -/
theorem c4_counterexample :
    Comments.Followers [⟨"x", "follow", "a b c"⟩] ≠
      followersSpec [⟨"x", "follow", "a b c"⟩] ∧
    Comments.Followers [⟨"x", "follow", "a b c"⟩] = [⟨"a", "b", "", ""⟩] ∧
    followersSpec [⟨"x", "follow", "a b c"⟩] = [] := by
  refine ⟨by decide, by decide, by decide⟩

/-- C4 (amended): Followers() returns, in insertion order, one Twter
{Nick, URL} from the first two whitespace fields of every entry whose key
starts with "follow" and whose value has at least two fields; only
entries with fewer than two fields are silently skipped (entries with
more than two are kept).  The header entry follow = "bob
https://bob.example/twtxt.txt" yields exactly [{bob, that URL}]. -/
theorem c4_followers (lis : List Comment) :
    Comments.Followers lis = followersAmended lis ∧
    Comments.Followers [⟨"# follow = bob https://bob.example/twtxt.txt", "follow",
        "bob https://bob.example/twtxt.txt"⟩] =
      [⟨"bob", "https://bob.example/twtxt.txt", "", ""⟩] := by
  refine ⟨?_, by decide⟩
  simp only [Comments.Followers, Comments.GetAll, followersAmended]
  induction lis with
  | nil => rfl
  | cons c lis ih =>
    by_cases hc : (c.key ≠ "" && strStartsWith c.key "follow") = true
    · rw [List.filter_cons, if_pos hc, List.filterMap_cons, List.filterMap_cons, ← ih]
      simp only [Bool.and_eq_true, ne_eq, decide_not, Bool.not_eq_true', decide_eq_false_iff_not] at hc
      cases hf : goFields c.value with
      | nil => simp [hf, hc]
      | cons a tl =>
        cases tl with
        | nil => simp [hf, hc]
        | cons b tl2 => simp [hf, hc]
    · rw [List.filter_cons, if_neg hc, List.filterMap_cons, ← ih]
      simp only [Bool.and_eq_true, ne_eq, decide_not, Bool.not_eq_true',
        decide_eq_false_iff_not, not_and] at hc
      have : ¬ (c.key ≠ "" ∧ strStartsWith c.key "follow" = true ∧
          2 ≤ (goFields c.value).length) := by
        intro h
        rcases h with ⟨h1, h2, _⟩
        exact absurd h2 (by simpa using hc (by simpa using h1))
      simp [this]

/-! ### Hash shape lemmas -/

theorem blake2b256_length (msg : List Nat) : (blake2b256 msg).length = 32 := by
  simp [blake2b256, le8]

theorem flatMap_byteBits_length (bs : List Nat) :
    (bs.flatMap byteBits).length = 8 * bs.length := by
  induction bs with
  | nil => simp
  | cons b bs ih =>
    simp [byteBits, ih]
    omega

theorem chunk5_length (l : List Nat) : (chunk5 l).length = (l.length + 4) / 5 := by
  induction l using chunk5.induct <;> (simp [chunk5]; try omega)

theorem base32nopad_length (bytes : List Nat) :
    (base32nopad bytes).length = (8 * bytes.length + 4) / 5 := by
  rw [base32nopad, List.length_map, chunk5_length, flatMap_byteBits_length]

theorem b32char_lower_mem (n : Nat) : (b32char n).toLower ∈ lowB32 := by
  have hdec : ∀ k, k < 32 → (b32Alphabet.getD k 'A').toLower ∈ lowB32 := by decide
  exact hdec (n % 32) (Nat.mod_lt _ (by norm_num))

/-- The lowercased base32 characters of a BLAKE2b-256 digest: always 52
of them. -/
theorem hashLowChars_length (x : List Nat) :
    ((base32nopad (blake2b256 x)).map Char.toLower).length = 52 := by
  rw [List.length_map, base32nopad_length, blake2b256_length]

/-- An unset hash is computed as the formula of the spec. -/
theorem hash_unset_eq (heap : Heap) (twt : Twt) (h : twt.hash = "") :
    Twt.Hash heap twt =
      (let payload := twt.twter.url ++ "\n" ++ formatRFC3339 twt.Created ++ "\n" ++
        Twt.LiteralText heap twt
       let chars := (base32nopad (blake2b256 (strBytes payload))).map Char.toLower
       String.mk (chars.drop (chars.length - TwtHashLength))) := by
  simp [Twt.Hash, h]

/-- A freshly computed hash has exactly TwtHashLength characters. -/
theorem hash_unset_length (heap : Heap) (twt : Twt) (h : twt.hash = "") :
    (Twt.Hash heap twt).length = 7 := by
  rw [hash_unset_eq heap twt h]
  show (List.drop _ _).length = 7
  rw [List.length_drop, hashLowChars_length]
  decide

/-- Every character of a freshly computed hash is in the lowercase
unpadded-base32 alphabet. -/
theorem hash_unset_mem (heap : Heap) (twt : Twt) (h : twt.hash = "") :
    ∀ ch ∈ (Twt.Hash heap twt).data, ch ∈ lowB32 := by
  rw [hash_unset_eq heap twt h]
  intro ch hch
  have h1 : ch ∈ (base32nopad (blake2b256 _)).map Char.toLower :=
    List.mem_of_mem_drop hch
  rcases List.mem_map.1 h1 with ⟨c0, hc0, rfl⟩
  rcases List.mem_map.1 (by simpa [base32nopad] using hc0) with ⟨grp, _, rfl⟩
  exact b32char_lower_mem _

/-- C3: for a Twt whose hash field is unset, Hash() is the last 7
characters of the lowercase unpadded base32 of BLAKE2b-256 over
url NL rfc3339(created) NL literal-text; it has exactly 7 characters,
all drawn from the lowercase unpadded-base32 alphabet. -/
theorem c3_hash (heap : Heap) (twt : Twt) (h : twt.hash = "") :
    (Twt.Hash heap twt =
      (let payload := twt.twter.url ++ "\n" ++ formatRFC3339 twt.Created ++ "\n" ++
        Twt.LiteralText heap twt
       let chars := (base32nopad (blake2b256 (strBytes payload))).map Char.toLower
       String.mk (chars.drop (chars.length - TwtHashLength)))) ∧
    (Twt.Hash heap twt).length = 7 ∧
    (∀ ch ∈ (Twt.Hash heap twt).data, ch ∈ lowB32) :=
  ⟨hash_unset_eq heap twt h, hash_unset_length heap twt h, hash_unset_mem heap twt h⟩

/-- Witness for C3 at a concrete freshly authored Twt. -/
theorem c3_hash_witness :
    (Twt.Hash ⟨[], []⟩ (emptyTwt ⟨"n", "https://u", "", ""⟩ none)).length = 7 :=
  (c3_hash ⟨[], []⟩ (emptyTwt ⟨"n", "https://u", "", ""⟩ none) rfl).2.1

/-! ### Subject fallback -/

/-- With no stored subject, Subject() synthesizes NewSubjectTag(hash, "")
and its Text() is the tag's literal, "#" followed by the hash. -/
theorem subjectData_unset (heap : Heap) (twt : Twt) (hs : twt.subject = none) :
    Twt.SubjectData heap twt = ⟨"", some (NewTagData (Twt.Hash heap twt) "")⟩ ∧
    (Twt.SubjectData heap twt).text = "#" ++ Twt.Hash heap twt := by
  constructor
  · simp [Twt.SubjectData, hs]
  · simp [Twt.SubjectData, hs, SubjectView.text, subjectText, NewTagData,
      tagText, tagCompact]

/-- C2: for a Twt with no Subject element and an unset hash,
Subject().Text() is NOT the Twt's own 7-character hash: it is the
synthesized tag's literal, which carries a leading "#" (8 characters). -/
theorem c2_counterexample :
    (Twt.SubjectData ⟨[], []⟩ (emptyTwt ⟨"n", "https://u", "", ""⟩ none)).text ≠
      Twt.Hash ⟨[], []⟩ (emptyTwt ⟨"n", "https://u", "", ""⟩ none) := by
  intro heq
  have h1 := (subjectData_unset ⟨[], []⟩ (emptyTwt ⟨"n", "https://u", "", ""⟩ none) rfl).2
  have h2 := hash_unset_length ⟨[], []⟩ (emptyTwt ⟨"n", "https://u", "", ""⟩ none) rfl
  rw [h1] at heq
  have h3 := congrArg String.length heq
  rw [String.length_append] at h3
  rw [show ("#" : String).length = 1 from rfl] at h3
  omega

/-- C2 (amended): for a Twt with no Subject element, Subject()
synthesizes a Subject wrapping a Tag whose tag text is exactly the Twt's
own hash, and Subject().Text() is the tag's literal: "#" followed by the
hash — 1 + 7 characters when the hash is freshly computed. -/
theorem c2_subject (heap : Heap) (twt : Twt) (hs : twt.subject = none) :
    Twt.SubjectData heap twt = ⟨"", some (NewTagData (Twt.Hash heap twt) "")⟩ ∧
    (Twt.SubjectData heap twt).tag.map (fun d => d.tag) =
      some (Twt.Hash heap twt) ∧
    (Twt.SubjectData heap twt).text = "#" ++ Twt.Hash heap twt ∧
    (twt.hash = "" → (Twt.SubjectData heap twt).text.length = 1 + TwtHashLength) := by
  obtain ⟨h1, h2⟩ := subjectData_unset heap twt hs
  refine ⟨h1, ?_, h2, fun hh => ?_⟩
  · rw [h1]
    simp [NewTagData]
  · rw [h2, String.length_append, hash_unset_length heap twt hh]
    rfl

/-- Witness for C2's amended theorem at a concrete Twt. -/
theorem c2_subject_witness :
    (Twt.SubjectData ⟨[], []⟩ (emptyTwt ⟨"n", "https://u", "", ""⟩ none)).text.length =
      1 + TwtHashLength :=
  (c2_subject ⟨[], []⟩ (emptyTwt ⟨"n", "https://u", "", ""⟩ none) rfl).2.2.2 rfl

/-! ### DecodeJSON hash carry -/

/-- C6: a decoded payload that carries a hash yields a Twt whose hash
field is that value, and Hash() returns it verbatim against any heap —
no recomputation from author URL, created or literal text happens. -/
theorem c6_decodeJSON (heap : Heap) (enc : JsonPayload) (h : enc.hash ≠ "") :
    (DecodeJSON heap enc).2.hash = enc.hash ∧
    ∀ anyHeap : Heap, Twt.Hash anyHeap (DecodeJSON heap enc).2 = enc.hash := by
  rcases hpt : ParseText heap enc.text with ⟨h1, elems⟩
  have hh : (DecodeJSON heap enc).2.hash = enc.hash := by
    simp [DecodeJSON, hpt]
  refine ⟨hh, fun anyHeap => ?_⟩
  rw [Twt.Hash, hh, if_pos h]

/-- Witness for C6 at a concrete payload carrying hash "abc1234". -/
theorem c6_decodeJSON_witness :
    Twt.Hash ⟨[], []⟩ (DecodeJSON ⟨[], []⟩
      ⟨⟨"n", "https://u", "", ""⟩, "hello", ⟨2021, 1, 2, 3, 4, 5, 0⟩, "abc1234"⟩).2 =
      "abc1234" :=
  (c6_decodeJSON ⟨[], []⟩
    ⟨⟨"n", "https://u", "", ""⟩, "hello", ⟨2021, 1, 2, 3, 4, 5, 0⟩, "abc1234"⟩
    (by decide)).2 ⟨[], []⟩

/-! ### Construction (Twt.append / NewTwt) -/

/-- One append step, written as a record update: the element joins msg,
feeds its kind's index, and a Subject fills the subject slot only when it
is still empty while its embedded tag always joins the tags index. -/
theorem append_some (twt : Twt) (e : Elem) :
    Twt.append twt (some e) =
      { twt with msg := twt.msg ++ [e],
                 tags := twt.tags ++ elemTagIds e,
                 mentions := twt.mentions ++ elemMentionIds e,
                 links := twt.links ++ elemLinkData e,
                 subject := Option.or twt.subject (elemSubjRef e) } := by
  cases e with
  | subject s tid =>
    cases tid with
    | some t =>
      cases hsub : twt.subject with
      | some a => simp [Twt.append, elemTagIds, elemMentionIds, elemLinkData,
          elemSubjRef, hsub, Option.or]
      | none => simp [Twt.append, elemTagIds, elemMentionIds, elemLinkData,
          elemSubjRef, hsub, Option.or]
    | none =>
      cases hsub : twt.subject with
      | some a => simp [Twt.append, elemTagIds, elemMentionIds, elemLinkData,
          elemSubjRef, hsub, Option.or]
      | none => simp [Twt.append, elemTagIds, elemMentionIds, elemLinkData,
          elemSubjRef, hsub, Option.or]
  | tag i => simp [Twt.append, elemTagIds, elemMentionIds, elemLinkData,
      elemSubjRef, Option.or_none]
  | mention i => simp [Twt.append, elemTagIds, elemMentionIds, elemLinkData,
      elemSubjRef, Option.or_none]
  | link lt t u => simp [Twt.append, elemTagIds, elemMentionIds, elemLinkData,
      elemSubjRef, Option.or_none]
  | text lit => simp [Twt.append, elemTagIds, elemMentionIds, elemLinkData,
      elemSubjRef, Option.or_none]
  | code ct lit => simp [Twt.append, elemTagIds, elemMentionIds, elemLinkData,
      elemSubjRef, Option.or_none]
  | lineSep => simp [Twt.append, elemTagIds, elemMentionIds, elemLinkData,
      elemSubjRef, Option.or_none]

/-- The append fold over an element list, as one record update: nils are
dropped, the retained elements join msg in order, the indices are the
concatenated per-element contributions, and the subject is the first
Subject element (unless already set). -/
theorem foldAppend (es : List (Option Elem)) : ∀ (t0 : Twt),
    es.foldl Twt.append t0 =
      { t0 with msg := t0.msg ++ es.filterMap id,
                tags := t0.tags ++ (es.filterMap id).flatMap elemTagIds,
                mentions := t0.mentions ++ (es.filterMap id).flatMap elemMentionIds,
                links := t0.links ++ (es.filterMap id).flatMap elemLinkData,
                subject := Option.or t0.subject
                  ((es.filterMap id).findSome? elemSubjRef) } := by
  induction es with
  | nil =>
    intro t0
    simp
  | cons oe es ih =>
    intro t0
    cases oe with
    | none =>
      rw [List.foldl_cons, show Twt.append t0 none = t0 from rfl, ih t0]
      simp
    | some e =>
      rw [List.foldl_cons, append_some, ih]
      simp [List.findSome?, Option.or_assoc]
      cases helem : elemSubjRef e with
      | some r => simp [Option.or]
      | none => simp [Option.or]

/-- C9: NewTwt drops the nil elements (modelled as `none`) and keeps
exactly the valid ones in order, so every member of Elems() is a real
element, and LiteralText() is the concatenation of the literals of
exactly the retained elements in order. -/
theorem c9_newTwt (twter : Twter) (dt : Option DateTime)
    (es : List (Option Elem)) (heap : Heap) :
    (NewTwt twter dt es).msg = es.filterMap id ∧
    (∀ e ∈ (NewTwt twter dt es).msg, some e ∈ es) ∧
    Twt.LiteralText heap (NewTwt twter dt es) =
      String.join ((es.filterMap id).map (fun e => (elemResolve heap e).literal)) := by
  have h := foldAppend es (emptyTwt twter dt)
  have hmsg : (NewTwt twter dt es).msg = es.filterMap id := by
    rw [NewTwt, h]
    simp [emptyTwt]
  refine ⟨hmsg, ?_, ?_⟩
  · intro e he
    rw [hmsg] at he
    rcases List.mem_filterMap.1 he with ⟨oe, hoe, hid⟩
    cases oe with
    | none => cases hid
    | some e' => cases hid; exact hoe
  · rw [Twt.LiteralText, hmsg]

/-- C10: appending a Subject wrapping an embedded Tag appends that tag
cell to the tags index; the subject slot is filled only when still
empty; and for a full construction the tags index is the concatenation
of per-element contributions (subject-embedded tags next to top-level
tags, in insertion order) while Subject() comes from the first Subject
element only. -/
theorem c10_subject_tags (twt : Twt) (s : String) (tid : Nat)
    (twter : Twter) (dt : Option DateTime) (es : List (Option Elem)) :
    (Twt.append twt (some (.subject s (some tid)))).tags = twt.tags ++ [tid] ∧
    (Twt.append twt (some (.subject s (some tid)))).subject =
      Option.or twt.subject (some ⟨s, some tid⟩) ∧
    (NewTwt twter dt es).tags = (es.filterMap id).flatMap elemTagIds ∧
    (NewTwt twter dt es).subject = (es.filterMap id).findSome? elemSubjRef := by
  have h := foldAppend es (emptyTwt twter dt)
  refine ⟨?_, ?_, ?_, ?_⟩
  · rw [append_some]
    simp [elemTagIds]
  · rw [append_some]
    simp [elemSubjRef]
  · rw [NewTwt, h]
    simp [emptyTwt]
  · rw [NewTwt, h]
    simp [emptyTwt, Option.or]

/-! ### Binary record codec -/

theorem splitNGo_length (sep : Char) :
    ∀ (cs : List Char) (n : Nat) (acc : List Char), 1 ≤ n →
      (splitNGo sep n acc cs).length = min n (cs.count sep + 1) := by
  intro cs
  induction cs with
  | nil =>
    intro n acc h
    simp [splitNGo]
    omega
  | cons c cs ih =>
    intro n acc h
    by_cases hc : (1 < n && c = sep) = true
    · simp only [Bool.and_eq_true, decide_eq_true_eq] at hc
      rw [splitNGo, if_pos (by simp [hc.1, hc.2])]
      simp only [List.length_cons]
      rw [ih (n - 1) [] (by omega)]
      rw [List.count_cons, if_pos (by simp [hc.2])]
      omega
    · rw [splitNGo, if_neg hc]
      rw [ih n (c :: acc) h]
      simp only [Bool.and_eq_true, decide_eq_true_eq, not_and] at hc
      by_cases hcs : c = sep
      · have hn1 : n = 1 := by
          rcases Nat.lt_or_ge 1 n with h1 | h1
          · exact absurd hcs (hc h1)
          · omega
        subst hn1
        simp [List.count_cons]
      · rw [List.count_cons, if_neg (by simp [hcs])]

theorem goSplitN_data_length (data : String) :
    (goSplitN data '\t' 5).length = min 5 (data.toList.count '\t' + 1) := by
  rw [goSplitN, if_neg (by norm_num)]
  exact splitNGo_length '\t' data.toList 5 [] (by norm_num)

theorem newTwt_twter (tw : Twter) (dt : Option DateTime)
    (es : List (Option Elem)) : (NewTwt tw dt es).twter = tw := by
  rw [NewTwt, foldAppend]
  rfl

/-- The modelled parse_line carries the given author into the Twt. -/
theorem parseLine_twter (heap : Heap) (line : String) (tw : Twter)
    (h' : Heap) (t : Twt)
    (h : ParseLine heap line tw = (h', Except.ok t)) : t.twter = tw := by
  rw [ParseLine] at h
  split at h
  · simp at h
  · split at h
    obtain ⟨-, h2⟩ := Prod.mk.inj h
    injection h2 with h3
    rw [← h3, newTwt_twter]

/-- C8: GobDecode fails exactly when the data has fewer than 4 tabs (so
it does not split into 5 fields) or when re-parsing the 5th field fails;
on success the receiver is rebuilt from the parsed 5th field with the
author from fields 1-3 (carried through parse_line), the hash restored
verbatim from field 4, and only the receiver's file position kept. -/
theorem c8_gobDecode (heap : Heap) (twt : Twt) (data : String) :
    (isOkE (Twt.GobDecode heap twt data).2 = false ↔
      data.toList.count '\t' < 4 ∨
        isOkE (ParseLine heap ((goSplitN data '\t' 5).getD 4 "")
          ⟨(goSplitN data '\t' 5).getD 0 "", (goSplitN data '\t' 5).getD 1 "",
           (goSplitN data '\t' 5).getD 2 "", ""⟩).2 = false) ∧
    (∀ (h' : Heap) (t : Twt),
      ParseLine heap ((goSplitN data '\t' 5).getD 4 "")
          ⟨(goSplitN data '\t' 5).getD 0 "", (goSplitN data '\t' 5).getD 1 "",
           (goSplitN data '\t' 5).getD 2 "", ""⟩ = (h', Except.ok t) →
      4 ≤ data.toList.count '\t' →
      Twt.GobDecode heap twt data =
        (h', Except.ok { t with hash := (goSplitN data '\t' 5).getD 3 "",
                                pos := twt.pos }) ∧
      t.twter = ⟨(goSplitN data '\t' 5).getD 0 "", (goSplitN data '\t' 5).getD 1 "",
        (goSplitN data '\t' 5).getD 2 "", ""⟩) := by
  have hlen := goSplitN_data_length data
  by_cases hcnt : data.toList.count '\t' < 4
  · have hne : (goSplitN data '\t' 5).length ≠ 5 := by omega
    have hg : Twt.GobDecode heap twt data =
        (heap, Except.error ("unable to decode twt: " ++ data ++ " ")) := by
      simp only [Twt.GobDecode, if_pos hne]
    constructor
    · rw [hg]
      exact iff_of_true rfl (Or.inl hcnt)
    · intro h' t hpl hge
      omega
  · have heq5 : ¬ (goSplitN data '\t' 5).length ≠ 5 := by omega
    rcases hpl : ParseLine heap ((goSplitN data '\t' 5).getD 4 "")
        ⟨(goSplitN data '\t' 5).getD 0 "", (goSplitN data '\t' 5).getD 1 "",
         (goSplitN data '\t' 5).getD 2 "", ""⟩ with ⟨h2, r⟩
    cases r with
    | error e =>
      have hg : Twt.GobDecode heap twt data = (h2, Except.error e) := by
        simp only [Twt.GobDecode, if_neg heq5, hpl]
      constructor
      · rw [hg]
        exact iff_of_true rfl (Or.inr rfl)
      · intro h' t hpl2 hge
        exact absurd hpl2 (by simp)
    | ok t0 =>
      have hg : Twt.GobDecode heap twt data =
          (h2, Except.ok { t0 with hash := (goSplitN data '\t' 5).getD 3 "",
                                   pos := twt.pos }) := by
        simp only [Twt.GobDecode, if_neg heq5, hpl]
      constructor
      · refine iff_of_false (by rw [hg]; simp [isOkE]) ?_
        rintro (hc | hc)
        · exact hcnt hc
        · simp [isOkE] at hc
      · intro h' t hpl2 hge
        obtain ⟨hh, ht⟩ := Prod.mk.inj hpl2
        injection ht with ht
        subst hh
        subst ht
        exact ⟨hg, parseLine_twter heap _ _ _ _ hpl⟩

/-- Witness for C8 at a concrete record: a well-formed 5-field record is
accepted, so the error test (applied through the theorem) agrees with the
tab count and the parse outcome. -/
theorem c8_gobDecode_witness :
    isOkE (Twt.GobDecode ⟨[], []⟩ (emptyTwt ⟨"", "", "", ""⟩ none)
        "nick\thttps://u\tav\thash123\t2021-01-02T03:04:05Z\thello").2 = true := by
  have h := (c8_gobDecode ⟨[], []⟩ (emptyTwt ⟨"", "", "", ""⟩ none)
    "nick\thttps://u\tav\thash123\t2021-01-02T03:04:05Z\thello").1
  by_cases hok : isOkE (Twt.GobDecode ⟨[], []⟩ (emptyTwt ⟨"", "", "", ""⟩ none)
      "nick\thttps://u\tav\thash123\t2021-01-02T03:04:05Z\thello").2 = false
  · rcases h.1 hok with hc | hc
    · exact absurd hc (by decide)
    · exact absurd hc (by decide)
  · simpa using hok

/-! ### Heap extension and frame lemmas -/

theorem heapExt_refl (h : Heap) : HeapExt h h :=
  ⟨le_refl _, le_refl _, fun _ _ => rfl, fun _ _ => rfl⟩

theorem heapExt_trans {a b c : Heap} (h1 : HeapExt a b) (h2 : HeapExt b c) :
    HeapExt a c := by
  obtain ⟨l1, l2, r1, r2⟩ := h1
  obtain ⟨l1', l2', r1', r2'⟩ := h2
  exact ⟨le_trans l1 l1', le_trans l2 l2',
    fun i hi => (r1' i (lt_of_lt_of_le hi l1)).trans (r1 i hi),
    fun i hi => (r2' i (lt_of_lt_of_le hi l2)).trans (r2 i hi)⟩

theorem mframe_refl (nm nt : Nat) (h : Heap) : MFrame nm nt h h :=
  ⟨fun _ _ => rfl, fun _ _ => rfl⟩

theorem mframe_trans {nm nt : Nat} {a b c : Heap} (h1 : MFrame nm nt a b)
    (h2 : MFrame nm nt b c) : MFrame nm nt a c :=
  ⟨fun i hi => (h2.1 i hi).trans (h1.1 i hi),
   fun i hi => (h2.2 i hi).trans (h1.2 i hi)⟩

theorem heapExt_mframe {a b : Heap} (h : HeapExt a b) :
    MFrame a.mentions.length a.tags.length a b :=
  ⟨fun i hi => h.2.2.1 i hi, fun i hi => h.2.2.2 i hi⟩

theorem getD_set_ne {α : Type} (l : List α) (i j : Nat) (d x : α)
    (hne : i ≠ j) : (l.set i x).getD j d = l.getD j d := by
  rw [List.getD_eq_getElem?_getD, List.getD_eq_getElem?_getD,
    List.getElem?_set_ne hne]

theorem setTag_mframe {nm nt : Nat} {i : Nat} (hle : nt ≤ i) (h : Heap)
    (d : TagData) : MFrame nm nt h (h.setTag i d) := by
  refine ⟨fun j hj => rfl, fun j hj => ?_⟩
  simp only [Heap.setTag, Heap.getTag]
  exact getD_set_ne _ _ _ _ _ (by omega)

theorem setMention_mframe {nm nt : Nat} {i : Nat} (hle : nm ≤ i) (h : Heap)
    (d : MentionData) : MFrame nm nt h (h.setMention i d) := by
  refine ⟨fun j hj => ?_, fun j hj => rfl⟩
  simp only [Heap.setMention, Heap.getMention]
  exact getD_set_ne _ _ _ _ _ (by omega)

theorem foldl_mframe {nm nt : Nat} (step : Heap → Nat → Heap) :
    ∀ (ids : List Nat) (h : Heap),
      (∀ (hh : Heap) (i : Nat), i ∈ ids → MFrame nm nt hh (step hh i)) →
      MFrame nm nt h (ids.foldl step h) := by
  intro ids
  induction ids with
  | nil => intro h _; exact mframe_refl nm nt h
  | cons i ids ih =>
    intro h hstep
    rw [List.foldl_cons]
    exact mframe_trans (hstep h i (List.mem_cons_self i ids))
      (ih (step h i) (fun hh j hj => hstep hh j (List.mem_cons_of_mem i hj)))

theorem resolve_mframe {nm nt : Nat} {a b : Heap} (hf : MFrame nm nt a b)
    (e : Elem) (hwf : Elem.wfb nm nt e = true) :
    elemResolve b e = elemResolve a e := by
  cases e with
  | mention i =>
    simp only [Elem.wfb, decide_eq_true_eq] at hwf
    simp [elemResolve, hf.1 i hwf]
  | tag i =>
    simp only [Elem.wfb, decide_eq_true_eq] at hwf
    simp [elemResolve, hf.2 i hwf]
  | subject s tid =>
    cases tid with
    | none => rfl
    | some t =>
      simp only [Elem.wfb, decide_eq_true_eq] at hwf
      simp [elemResolve, hf.2 t hwf]
  | text lit => rfl
  | link lt t u => rfl
  | code ct lit => rfl
  | lineSep => rfl

theorem wfb_mono {nm nt nm' nt' : Nat} (h1 : nm ≤ nm') (h2 : nt ≤ nt')
    (e : Elem) (hwf : Elem.wfb nm nt e = true) : Elem.wfb nm' nt' e = true := by
  cases e with
  | mention i => simp only [Elem.wfb, decide_eq_true_eq] at *; omega
  | tag i => simp only [Elem.wfb, decide_eq_true_eq] at *; omega
  | subject s tid =>
    cases tid with
    | none => rfl
    | some t => simp only [Elem.wfb, decide_eq_true_eq] at *; omega
  | text lit => rfl
  | link lt t u => rfl
  | code ct lit => rfl
  | lineSep => rfl

theorem freshb_mono {nm nt nm' nt' : Nat} (h1 : nm ≤ nm') (h2 : nt ≤ nt')
    (e : Elem) (hfr : Elem.freshb nm' nt' e = true) :
    Elem.freshb nm nt e = true := by
  cases e with
  | mention i => simp only [Elem.freshb, decide_eq_true_eq] at *; omega
  | tag i => simp only [Elem.freshb, decide_eq_true_eq] at *; omega
  | subject s tid =>
    cases tid with
    | none => rfl
    | some t => simp only [Elem.freshb, decide_eq_true_eq] at *; omega
  | text lit => rfl
  | link lt t u => rfl
  | code ct lit => rfl
  | lineSep => rfl

theorem allocPE_spec (h : Heap) (p : PElem) :
    HeapExt h (allocPE h p).1 ∧
    elemResolve (allocPE h p).1 (allocPE h p).2 = p ∧
    Elem.freshb h.mentions.length h.tags.length (allocPE h p).2 = true ∧
    Elem.wfb (allocPE h p).1.mentions.length (allocPE h p).1.tags.length
      (allocPE h p).2 = true := by
  cases p with
  | mention d =>
    refine ⟨⟨by simp [allocPE], le_refl _, fun i hi => ?_, fun i hi => rfl⟩, ?_, ?_, ?_⟩
    · simp only [allocPE, Heap.getMention]
      rw [List.getD_append _ _ _ _ hi]
    · simp only [allocPE, elemResolve, Heap.getMention]
      rw [List.getD_append_right _ _ _ _ (le_refl _)]
      simp
    · simp [allocPE, Elem.freshb]
    · simp [allocPE, Elem.wfb]
  | tag d =>
    refine ⟨⟨le_refl _, by simp [allocPE], fun i hi => rfl, fun i hi => ?_⟩, ?_, ?_, ?_⟩
    · simp only [allocPE, Heap.getTag]
      rw [List.getD_append _ _ _ _ hi]
    · simp only [allocPE, elemResolve, Heap.getTag]
      rw [List.getD_append_right _ _ _ _ (le_refl _)]
      simp
    · simp [allocPE, Elem.freshb]
    · simp [allocPE, Elem.wfb]
  | subject s tid =>
    cases tid with
    | some d =>
      refine ⟨⟨le_refl _, by simp [allocPE], fun i hi => rfl, fun i hi => ?_⟩, ?_, ?_, ?_⟩
      · simp only [allocPE, Heap.getTag]
        rw [List.getD_append _ _ _ _ hi]
      · simp only [allocPE, elemResolve, Heap.getTag, Option.map]
        rw [List.getD_append_right _ _ _ _ (le_refl _)]
        simp
      · simp [allocPE, Elem.freshb]
      · simp [allocPE, Elem.wfb]
    | none =>
      exact ⟨heapExt_refl h, rfl, rfl, rfl⟩
  | text lit => exact ⟨heapExt_refl h, rfl, rfl, rfl⟩
  | link lt t u => exact ⟨heapExt_refl h, rfl, rfl, rfl⟩
  | code ct lit => exact ⟨heapExt_refl h, rfl, rfl, rfl⟩
  | lineSep => exact ⟨heapExt_refl h, rfl, rfl, rfl⟩

theorem cloneElems_spec : ∀ (es : List Elem) (h : Heap),
    es.all (Elem.wfb h.mentions.length h.tags.length) = true →
    HeapExt h (cloneElems h es).1 ∧
    (cloneElems h es).2.map (elemResolve (cloneElems h es).1) =
      es.map (elemResolve h) ∧
    (cloneElems h es).2.all
      (Elem.freshb h.mentions.length h.tags.length) = true ∧
    (cloneElems h es).2.all (Elem.wfb (cloneElems h es).1.mentions.length
      (cloneElems h es).1.tags.length) = true := by
  intro es
  induction es with
  | nil =>
    intro h _
    exact ⟨heapExt_refl h, rfl, rfl, rfl⟩
  | cons e es ih =>
    intro h hwf
    rw [List.all_cons, Bool.and_eq_true] at hwf
    obtain ⟨hwfe, hwfes⟩ := hwf
    obtain ⟨hext1, hres1, hfr1, hwf1⟩ := allocPE_spec h (elemResolve h e)
    rcases ha : allocPE h (elemResolve h e) with ⟨h1, e'⟩
    rw [ha] at hext1 hres1 hfr1 hwf1
    have hwfes1 : es.all (Elem.wfb h1.mentions.length h1.tags.length) = true := by
      rw [List.all_eq_true] at hwfes ⊢
      exact fun x hx => wfb_mono hext1.1 hext1.2.1 x (hwfes x hx)
    obtain ⟨hext2, hres2, hfr2, hwf2⟩ := ih h1 hwfes1
    rcases hb : cloneElems h1 es with ⟨h2, es'⟩
    rw [hb] at hext2 hres2 hfr2 hwf2
    have hstep : cloneElems h (e :: es) = (h2, e' :: es') := by
      simp [cloneElems, ha, hb]
    rw [hstep]
    refine ⟨heapExt_trans hext1 hext2, ?_, ?_, ?_⟩
    · simp only [List.map_cons]
      rw [resolve_mframe (heapExt_mframe hext2) e' hwf1, hres1, hres2]
      congr 1
      exact List.map_congr_left (fun x hx =>
        resolve_mframe (heapExt_mframe hext1) x
          ((List.all_eq_true.1 hwfes) x hx))
    · rw [List.all_cons, Bool.and_eq_true]
      refine ⟨hfr1, ?_⟩
      rw [List.all_eq_true] at hfr2 ⊢
      exact fun x hx => freshb_mono hext1.1 hext1.2.1 x (hfr2 x hx)
    · rw [List.all_cons, Bool.and_eq_true]
      refine ⟨wfb_mono hext2.1 hext2.2.1 e' hwf1, hwf2⟩

theorem twtWfb_unpack (heap : Heap) (twt : Twt) (hwf : Twt.wfb heap twt = true) :
    twt.msg.all (Elem.wfb heap.mentions.length heap.tags.length) = true ∧
    (∀ i ∈ twt.mentions, i < heap.mentions.length) ∧
    (∀ i ∈ twt.tags, i < heap.tags.length) ∧
    (∀ s t, twt.subject = some s → s.tagId = some t → t < heap.tags.length) := by
  rw [Twt.wfb] at hwf
  simp only [Bool.and_eq_true] at hwf
  obtain ⟨⟨⟨h1, h2⟩, h3⟩, h4⟩ := hwf
  refine ⟨h1, ?_, ?_, ?_⟩
  · intro i hi
    simpa using (List.all_eq_true.1 h2) i hi
  · intro i hi
    simpa using (List.all_eq_true.1 h3) i hi
  · intro s t hs ht
    rcases s with ⟨sub, tid⟩
    cases ht
    rw [hs] at h4
    simpa using h4

theorem reads_mframe (heap h2 : Heap) (twt : Twt)
    (hwf : Twt.wfb heap twt = true)
    (hf : MFrame heap.mentions.length heap.tags.length heap h2) :
    Twt.Reads h2 twt = Twt.Reads heap twt := by
  obtain ⟨hmsg, hmen, htags, hsub⟩ := twtWfb_unpack heap twt hwf
  have hres : twt.msg.map (elemResolve h2) = twt.msg.map (elemResolve heap) :=
    List.map_congr_left (fun e he =>
      resolve_mframe hf e ((List.all_eq_true.1 hmsg) e he))
  have hrend : ∀ m, Twt.render h2 twt m = Twt.render heap twt m := by
    intro m
    rw [Twt.render, Twt.render]
    have h5 := congrArg (List.map (PElem.render m)) hres
    rw [List.map_map, List.map_map] at h5
    exact congrArg String.join h5
  simp only [Twt.Reads, Prod.mk.injEq, true_and, and_true]
  refine ⟨hres, ?_, ?_, ?_, ?_⟩
  · exact List.map_congr_left (fun i hi => hf.1 i (hmen i hi))
  · exact List.map_congr_left (fun i hi => hf.2 i (htags i hi))
  · cases hs : twt.subject with
    | none => rfl
    | some s =>
      cases hst : s.tagId with
      | none => simp [hst]
      | some t => simp [hst, hf.2 t (hsub s t hs hst)]
  · simp [hrend]

theorem newTwt_map_some (tw : Twter) (dt : Option DateTime) (es : List Elem) :
    (NewTwt tw dt (es.map some)).msg = es ∧
    (NewTwt tw dt (es.map some)).tags = es.flatMap elemTagIds ∧
    (NewTwt tw dt (es.map some)).mentions = es.flatMap elemMentionIds := by
  have hid : (es.map some).filterMap id = es := by
    rw [List.filterMap_map]
    simp [List.filterMap_some]
  rw [NewTwt, foldAppend]
  simp [emptyTwt, hid]

theorem elemTagIds_fresh {nm nt : Nat} (e : Elem)
    (hfr : Elem.freshb nm nt e = true) : ∀ i ∈ elemTagIds e, nt ≤ i := by
  cases e with
  | tag i => simpa [elemTagIds, Elem.freshb] using hfr
  | subject s tid =>
    cases tid with
    | none => simp [elemTagIds]
    | some t => simpa [elemTagIds, Elem.freshb] using hfr
  | mention i => simp [elemTagIds]
  | text lit => simp [elemTagIds]
  | link lt t u => simp [elemTagIds]
  | code ct lit => simp [elemTagIds]
  | lineSep => simp [elemTagIds]

theorem elemMentionIds_fresh {nm nt : Nat} (e : Elem)
    (hfr : Elem.freshb nm nt e = true) : ∀ i ∈ elemMentionIds e, nm ≤ i := by
  cases e with
  | mention i => simpa [elemMentionIds, Elem.freshb] using hfr
  | subject s tid => simp [elemMentionIds]
  | tag i => simp [elemMentionIds]
  | text lit => simp [elemMentionIds]
  | link lt t u => simp [elemMentionIds]
  | code ct lit => simp [elemMentionIds]
  | lineSep => simp [elemMentionIds]

theorem cloneTwt_spec (heap : Heap) (twt : Twt) (hwf : Twt.wfb heap twt = true) :
    HeapExt heap (Twt.CloneTwt heap twt).1 ∧
    (∀ m : RMode, Twt.render (Twt.CloneTwt heap twt).1 (Twt.CloneTwt heap twt).2 m =
      Twt.render heap twt m) ∧
    (∀ i ∈ (Twt.CloneTwt heap twt).2.tags, heap.tags.length ≤ i) ∧
    (∀ i ∈ (Twt.CloneTwt heap twt).2.mentions, heap.mentions.length ≤ i) := by
  obtain ⟨hmsg, -, -, -⟩ := twtWfb_unpack heap twt hwf
  obtain ⟨hext, hres, hfr, -⟩ := cloneElems_spec twt.msg heap hmsg
  rcases hc : cloneElems heap twt.msg with ⟨h1, es'⟩
  rw [hc] at hext hres hfr
  have hC : Twt.CloneTwt heap twt = (h1, NewTwt twt.twter twt.dt (es'.map some)) := by
    simp [Twt.CloneTwt, hc]
  rw [hC]
  obtain ⟨hm, ht, hmn⟩ := newTwt_map_some twt.twter twt.dt es'
  refine ⟨hext, ?_, ?_, ?_⟩
  · intro m
    rw [Twt.render, Twt.render, hm]
    have h5 := congrArg (List.map (PElem.render m)) hres
    rw [List.map_map, List.map_map] at h5
    exact congrArg String.join h5
  · intro i hi
    rw [ht] at hi
    rcases List.mem_flatMap.1 hi with ⟨e, he, hie⟩
    exact elemTagIds_fresh e ((List.all_eq_true.1 hfr) e he) i hie
  · intro i hi
    rw [hmn] at hi
    rcases List.mem_flatMap.1 hi with ⟨e, he, hie⟩
    exact elemMentionIds_fresh e ((List.all_eq_true.1 hfr) e he) i hie

theorem expandLinks_mframe (heap : Heap) (c : Twt) (opts : FmtOpts)
    (lookup : Option FeedLookup) {nm nt : Nat}
    (htags : ∀ i ∈ c.tags, nt ≤ i) (hmen : ∀ i ∈ c.mentions, nm ≤ i) :
    MFrame nm nt heap (Twt.ExpandLinks heap c opts lookup) := by
  simp only [Twt.ExpandLinks]
  refine mframe_trans (foldl_mframe _ c.tags heap ?_) (foldl_mframe _ c.mentions _ ?_)
  · intro hh i hi
    dsimp only
    by_cases hc : (hh.getTag i).target = ""
    · rw [if_pos hc]
      exact setTag_mframe (htags i hi) hh _
    · rw [if_neg hc]
      exact mframe_refl nm nt hh
  · intro hh i hi
    dsimp only
    cases lookup with
    | none => exact mframe_refl nm nt hh
    | some lk =>
      dsimp only
      by_cases hc : (hh.getMention i).target = ""
      · rw [if_pos hc]
        exact setMention_mframe (hmen i hi) hh _
      · rw [if_neg hc]
        exact mframe_refl nm nt hh

/-- C5: the clone renders identically to the original in all five modes
(literal %L, text %T, markdown %M, html %H, compact %C), and running
ExpandLinks on the clone afterwards leaves every observable of the
original — resolved elements, resolved mention/tag indices, links,
resolved subject and all five renderings — unchanged. -/
theorem c5_clone (heap : Heap) (twt : Twt) (hwf : Twt.wfb heap twt = true) :
    (∀ m : RMode, Twt.render (Twt.CloneTwt heap twt).1 (Twt.CloneTwt heap twt).2 m =
      Twt.render heap twt m) ∧
    (∀ (opts : FmtOpts) (lookup : Option FeedLookup),
      Twt.Reads (Twt.ExpandLinks (Twt.CloneTwt heap twt).1
        (Twt.CloneTwt heap twt).2 opts lookup) twt = Twt.Reads heap twt) := by
  obtain ⟨hext, hrend, htagsf, hmenf⟩ := cloneTwt_spec heap twt hwf
  refine ⟨hrend, fun opts lookup => ?_⟩
  have hfr := expandLinks_mframe (Twt.CloneTwt heap twt).1 (Twt.CloneTwt heap twt).2
    opts lookup htagsf hmenf
  exact reads_mframe heap _ twt hwf (mframe_trans (heapExt_mframe hext) hfr)

/-- Witness for C5 at a concrete heap and Twt. -/
theorem c5_clone_witness :
    Twt.render
      (Twt.CloneTwt ⟨[⟨"@bob", "bob", "", ""⟩], [⟨"#x", "x", ""⟩, ⟨"#y", "y", ""⟩]⟩
        (NewTwt ⟨"n", "https://u", "", ""⟩ none
          [some (Elem.mention 0), some (Elem.tag 0),
           some (Elem.subject "s" (some 1))])).1
      (Twt.CloneTwt ⟨[⟨"@bob", "bob", "", ""⟩], [⟨"#x", "x", ""⟩, ⟨"#y", "y", ""⟩]⟩
        (NewTwt ⟨"n", "https://u", "", ""⟩ none
          [some (Elem.mention 0), some (Elem.tag 0),
           some (Elem.subject "s" (some 1))])).2 RMode.T =
    Twt.render ⟨[⟨"@bob", "bob", "", ""⟩], [⟨"#x", "x", ""⟩, ⟨"#y", "y", ""⟩]⟩
      (NewTwt ⟨"n", "https://u", "", ""⟩ none
        [some (Elem.mention 0), some (Elem.tag 0),
         some (Elem.subject "s" (some 1))]) RMode.T :=
  (c5_clone ⟨[⟨"@bob", "bob", "", ""⟩], [⟨"#x", "x", ""⟩, ⟨"#y", "y", ""⟩]⟩
    (NewTwt ⟨"n", "https://u", "", ""⟩ none
      [some (Elem.mention 0), some (Elem.tag 0),
       some (Elem.subject "s" (some 1))]) (by decide)).1 RMode.T

/-- C7: FormatText performs its redaction/rewriting pass on a private
clone only: the heap it returns reads identically, at every cell the
receiver references, to the heap before the call — so the receiver's
resolved elements, indices, subject and every rendering are unchanged. -/
theorem c7_formatText (heap : Heap) (twt : Twt) (mode : TwtTextFormat)
    (opts : Option FmtOpts) (hwf : Twt.wfb heap twt = true) :
    Twt.Reads (Twt.FormatText heap twt mode opts).1 twt = Twt.Reads heap twt := by
  obtain ⟨hext, -, htagsf, hmenf⟩ := cloneTwt_spec heap twt hwf
  rcases hc : Twt.CloneTwt heap twt with ⟨h1, c⟩
  rw [hc] at hext htagsf hmenf
  have key : MFrame heap.mentions.length heap.tags.length h1
      (Twt.FormatText heap twt mode opts).1 := by
    cases opts with
    | none =>
      simp only [Twt.FormatText, hc]
      exact mframe_refl _ _ h1
    | some o =>
      simp only [Twt.FormatText, hc]
      refine mframe_trans (foldl_mframe _ c.tags h1 ?_) (foldl_mframe _ c.mentions _ ?_)
      · intro hh i hi
        cases mode with
        | text => exact setTag_mframe (htagsf i hi) hh _
        | markdown => exact mframe_refl _ _ hh
        | html => exact mframe_refl _ _ hh
        | other => exact mframe_refl _ _ hh
      · intro hh i hi
        cases mode with
        | text => exact setMention_mframe (hmenf i hi) hh _
        | markdown =>
          dsimp only
          by_cases hcon : (o.isLocalURL (hh.getMention i).target &&
              strEndsWith (hh.getMention i).target "/twtxt.txt") = true
          · rw [if_pos hcon]
            exact setMention_mframe (hmenf i hi) hh _
          · rw [if_neg hcon]
            exact setMention_mframe (hmenf i hi) hh _
        | html =>
          dsimp only
          by_cases hcon : (o.isLocalURL (hh.getMention i).target &&
              strEndsWith (hh.getMention i).target "/twtxt.txt") = true
          · rw [if_pos hcon]
            exact setMention_mframe (hmenf i hi) hh _
          · rw [if_neg hcon]
            exact setMention_mframe (hmenf i hi) hh _
        | other => exact mframe_refl _ _ hh
  exact reads_mframe heap _ twt hwf (mframe_trans (heapExt_mframe hext) key)

/-- Witness for C7 at a concrete heap, Twt, mode and options. -/
theorem c7_formatText_witness :
    Twt.Reads (Twt.FormatText ⟨[⟨"@bob", "bob", "", ""⟩], [⟨"#x", "x", ""⟩]⟩
      (NewTwt ⟨"n", "https://u", "", ""⟩ none
        [some (Elem.mention 0), some (Elem.tag 0)]) TwtTextFormat.text
      (some ⟨"local", fun _ => false, fun s => s, fun _ t => t,
        fun _ => "", fun _ => ""⟩)).1
      (NewTwt ⟨"n", "https://u", "", ""⟩ none
        [some (Elem.mention 0), some (Elem.tag 0)]) =
    Twt.Reads ⟨[⟨"@bob", "bob", "", ""⟩], [⟨"#x", "x", ""⟩]⟩
      (NewTwt ⟨"n", "https://u", "", ""⟩ none
        [some (Elem.mention 0), some (Elem.tag 0)]) :=
  c7_formatText ⟨[⟨"@bob", "bob", "", ""⟩], [⟨"#x", "x", ""⟩]⟩
    (NewTwt ⟨"n", "https://u", "", ""⟩ none
      [some (Elem.mention 0), some (Elem.tag 0)]) TwtTextFormat.text
    (some ⟨"local", fun _ => false, fun s => s, fun _ t => t,
      fun _ => "", fun _ => ""⟩) (by decide)
